import Mathlib

/-!
Verification development for the PageIndex code indexer.

The Python sources under `pageindex/` are shallowly embedded below:

* `CNode` / `CFields` is the canonical node dictionary produced by every
  extractor (`title`, `type`, `start_line`, `end_line`, optional
  `signature` / `docstring` / `decorators` / `text` / `summary` /
  `prefix_summary` / `path`, and the optional `nodes` children list; a
  Python dict without the key is `none`, a dict with an empty list is
  `some []`).
* `extract_nodes_from_python` embeds `page_index_python.py` over a model
  of the `ast` statement tree (the AST provider is an external
  collaborator; its position fields are inputs).
* `extract_nodes_from_java` / `processJavaMember` embed
  `page_index_java.py` over a model of the `javalang` tree.
* `extract_nodes_from_cpp` / `processCppNode` embed `page_index_cpp.py`
  over a model of the tree-sitter CST.
* `extract_nodes_from_kotlin` embeds the heuristic scanner of
  `page_index_kotlin.py`, including character-level models of its three
  regular expressions and of `count_braces`.
* `tree_thinning_for_code`, `generate_summaries_for_code_structure`,
  `preserve_imports_text`, `build_file_tree`, `build_directory_tree` and
  the entry checks of `code_to_tree` embed `page_index_code.py`.  The
  token counter and the model call are external collaborators and appear
  as function parameters.
-/

/-- The scalar fields of a canonical node dictionary.  Fields that a given
extractor does not write are `none` (missing key). -/
structure CFields where
  title : String := ""
  type : String := ""
  startLine : Nat := 0
  endLine : Nat := 0
  signature : Option String := none
  docstring : Option String := none
  decorators : Option (List String) := none
  text : Option String := none
  summary : Option String := none
  prefixSummary : Option String := none
  path : Option String := none
  deriving Repr, DecidableEq

/-- A canonical node: its scalar fields plus the optional `nodes` children
list (`none` = the dict has no `nodes` key, `some []` = empty list). -/
inductive CNode where
  | mk : CFields → Option (List CNode) → CNode
  deriving Repr

def CNode.fields : CNode → CFields
  | .mk f _ => f

def CNode.nodes : CNode → Option (List CNode)
  | .mk _ k => k

/-- `node.get('nodes', [])`. -/
def CNode.childList (n : CNode) : List CNode := n.nodes.getD []

mutual

/-- `start_line ≤ end_line` at this node and every descendant. -/
def CNode.sortedB : CNode → Bool
  | .mk f k => (decide (f.startLine ≤ f.endLine)) && sortedOptB k

def sortedOptB : Option (List CNode) → Bool
  | none => true
  | some l => sortedListB l

def sortedListB : List CNode → Bool
  | [] => true
  | c :: cs => c.sortedB && sortedListB cs

end

mutual

/-- Every child's `[start_line, end_line]` lies within its parent's range,
at this node and every descendant. -/
def CNode.nestedB : CNode → Bool
  | .mk f k =>
    ((k.getD []).all fun c =>
        decide (f.startLine ≤ c.fields.startLine) &&
        decide (c.fields.endLine ≤ f.endLine)) &&
      nestedOptB k

def nestedOptB : Option (List CNode) → Bool
  | none => true
  | some l => nestedListB l

def nestedListB : List CNode → Bool
  | [] => true
  | c :: cs => c.nestedB && nestedListB cs

end

mutual

/-- Number of nodes (this node and its descendants) whose `type` is `t`. -/
def CNode.countType (t : String) : CNode → Nat
  | .mk f k => (if f.type = t then 1 else 0) + countTypeOpt t k

def countTypeOpt (t : String) : Option (List CNode) → Nat
  | none => 0
  | some l => countTypeList t l

def countTypeList (t : String) : List CNode → Nat
  | [] => 0
  | c :: cs => c.countType t + countTypeList t cs

end

/-!
## Exact-AST extractor (`page_index_python.py`)

The `ast` module is an external provider: a statement is embedded with the
position fields (`lineno`, `end_lineno`) it reports.  The pure string
renderings `extract_signature`, `extract_docstring`, `extract_decorators`
and `ast.unparse` (lines 5-93) only shape string payloads and are carried
as provider-supplied string fields; no claim concerns their content.
`ast.parse` failures yield an empty statement list at the caller
(`except SyntaxError: return []`), so the extractor itself is modelled on
an already-parsed body.
-/
/-- A top-level or nested Python statement as reported by the AST
provider.  `imp` covers both `ast.Import` and `ast.ImportFrom`. -/
inductive PyStmt where
  | imp (unparsed : String) (lineno endLineno : Nat)
  | classDef (name : String) (lineno endLineno : Nat)
      (docstring : Option String) (decorators : List String)
      (body : List PyStmt)
  | funcDef (isAsync : Bool) (name : String) (signature : String)
      (lineno endLineno : Nat) (docstring : Option String)
      (decorators : List String) (body : List PyStmt)
  | other (lineno endLineno : Nat)
  deriving Repr

def PyStmt.lineno : PyStmt → Nat
  | .imp _ l _ => l
  | .classDef _ l _ _ _ _ => l
  | .funcDef _ _ _ l _ _ _ _ => l
  | .other l _ => l

def PyStmt.endLineno : PyStmt → Nat
  | .imp _ _ e => e
  | .classDef _ _ e _ _ _ => e
  | .funcDef _ _ _ _ e _ _ _ => e
  | .other _ e => e

/-- `isinstance(node, (ast.Import, ast.ImportFrom))`. -/
def PyStmt.isImport : PyStmt → Bool
  | .imp _ _ _ => true
  | _ => false

/-- `ast.unparse(imp)`; only ever read on import statements. -/
def PyStmt.unparse : PyStmt → String
  | .imp u _ _ => u
  | _ => ""

/-- The nested statement list of a class or function definition. -/
def PyStmt.subs : PyStmt → List PyStmt
  | .classDef _ _ _ _ _ b => b
  | .funcDef _ _ _ _ _ _ _ b => b
  | _ => []

mutual

/-- `process_node` of `page_index_python.py` (lines 108-155): classes and
functions become canonical nodes carrying the provider's exact positions;
anything else yields `None`. -/
def pyProcessNode : PyStmt → Option String → Option CNode
  | .classDef name l e doc dec body, _ =>
    some (.mk
      { title := name, type := "class", startLine := l, endLine := e,
        docstring := doc, decorators := some dec }
      (some (pyProcessBody body "class")))
  | .funcDef _ name sig l e doc dec body, parentType =>
    some (.mk
      { title := name ++ "()",
        type := if parentType = some "class" then "method" else "function",
        startLine := l, endLine := e, signature := some sig,
        docstring := doc, decorators := some dec }
      (some (pyProcessBody body "function")))
  | .imp _ _ _, _ => none
  | .other _ _, _ => none

def pyProcessBody : List PyStmt → String → List CNode
  | [], _ => []
  | s :: rest, pt =>
    (match pyProcessNode s (some pt) with
      | some n => [n]
      | none => []) ++ pyProcessBody rest pt

end

/-- One `import` child of an `imports` batch node (exact-AST extractor
only; lines 166-174 and 192-200). -/
def pyImportChild (s : PyStmt) : CNode :=
  .mk { title := s.unparse, type := "import",
        startLine := s.lineno, endLine := s.endLineno } (some [])

/-- The batched `imports` node: spans the first statement's `lineno` to the
last statement's `end_lineno` (lines 176-182 and 202-208).  Only applied to
nonempty batches. -/
def pyImportsNode (cur : List PyStmt) : CNode :=
  .mk { title := "Imports", type := "imports",
        startLine := (cur.head?.map PyStmt.lineno).getD 0,
        endLine := (cur.getLast?.map PyStmt.endLineno).getD 0 }
    (some (cur.map pyImportChild))

/-- `if current_imports: nodes.append(import_node)` — flush an open import
batch into a single `imports` node (empty batch flushes nothing). -/
def pyFlush : List PyStmt → List CNode
  | [] => []
  | a :: tail => [pyImportsNode (a :: tail)]

/-- The top-level loop of `extract_nodes_from_python` (lines 157-209):
consecutive imports are batched; any non-import statement flushes the open
batch before being processed; a batch still open at end of body is
flushed. -/
def pyTopLoop : List PyStmt → List PyStmt → List CNode
  | [], cur => pyFlush cur
  | s :: rest, cur =>
    if s.isImport then pyTopLoop rest (cur ++ [s])
    else
      pyFlush cur ++
      (match pyProcessNode s none with
        | some n => [n]
        | none => []) ++
      pyTopLoop rest []

/-- `extract_nodes_from_python` on an already-parsed module body. -/
def extract_nodes_from_python (body : List PyStmt) : List CNode :=
  pyTopLoop body []

mutual

/-- Well-formedness of the positions the AST provider reports: every
statement satisfies `lineno ≤ end_lineno` and every nested statement's
range lies within its parent's range.  (CPython's `ast` guarantees this;
it is an input contract here.) -/
def PyStmt.wfB : PyStmt → Bool
  | .imp _ l e => decide (l ≤ e)
  | .other l e => decide (l ≤ e)
  | .classDef _ l e _ _ b => decide (l ≤ e) && pyWfBody l e b
  | .funcDef _ _ _ l e _ _ b => decide (l ≤ e) && pyWfBody l e b

def pyWfBody : Nat → Nat → List PyStmt → Bool
  | _, _, [] => true
  | l, e, s :: rest =>
    decide (l ≤ s.lineno) && decide (s.endLineno ≤ e) && s.wfB &&
      pyWfBody l e rest

end

/-- Statements of one body appear in source order: both position fields are
nondecreasing along the list (another provider guarantee). -/
def pyMono : List PyStmt → Bool
  | [] => true
  | [_] => true
  | a :: b :: rest =>
    decide (a.lineno ≤ b.lineno) && decide (a.endLineno ≤ b.endLineno) &&
      pyMono (b :: rest)

/-!
## Coarse-AST extractor (`page_index_java.py`)

The `javalang` provider reports only a start position per declaration
(`node.position`, possibly `None`).  `end_line` is therefore estimated:
classes/interfaces/enums take the maximum end-line of their processed
children (falling back to `start_line`), methods/constructors take the
last body statement's line plus one (falling back to `start_line`).
-/
/-- The three class-like `javalang` declaration kinds. -/
inductive JTypeKind where
  | classK
  | interfaceK
  | enumK
  deriving Repr, DecidableEq

/-- The `type` string `process_node` chooses for a class-like kind
(lines 36-40). -/
def JTypeKind.toType : JTypeKind → String
  | .classK => "class"
  | .interfaceK => "interface"
  | .enumK => "enum"

/-- A statement of a method body; only its optional position is read. -/
structure JStmt where
  position : Option Nat
  deriving Repr, DecidableEq

/-- A `javalang` class-body member.  String renderings (documentation,
annotation names, parameter types) are provider-supplied payloads. -/
inductive JMember where
  | classDecl (kind : JTypeKind) (name : String) (position : Option Nat)
      (documentation : Option String) (annotations : List String)
      (body : List JMember)
  | methodDecl (isCtor : Bool) (name : String)
      (params : List (String × String)) (returnType : Option String)
      (position : Option Nat) (documentation : Option String)
      (annotations : List String) (body : List JStmt)
  | otherMember
  deriving Repr

/-- `get_line_range` (lines 26-29): `node.position.line if node.position
else 1`. -/
def jLineRange (pos : Option Nat) : Nat := pos.getD 1

/-- The reconstructed method signature (lines 80-89). -/
def jSignature (isCtor : Bool) (name : String)
    (params : List (String × String)) (returnType : Option String) : String :=
  let base := name ++ "(" ++
    String.intercalate ", " (params.map fun p => p.1 ++ " " ++ p.2) ++ ")"
  match isCtor, returnType with
  | false, some rt => rt ++ " " ++ base
  | _, _ => base

/-- `max_child_end` accumulation (lines 64-67). -/
def jMaxChildEnd (start : Nat) (kids : List CNode) : Nat :=
  kids.foldl (fun acc c => if c.fields.endLine > acc then c.fields.endLine
    else acc) start

/-- Method/constructor end-line estimate (lines 104-113): last body
statement's line plus one, else `start_line`. -/
def jMethodEnd (start : Nat) (body : List JStmt) : Nat :=
  match body.getLast? with
  | some st =>
    match st.position with
    | some p => p + 1
    | none => start
  | none => start

mutual

/-- `process_node` of `page_index_java.py` (lines 31-117).  The
`parent_type` argument is threaded exactly as in the source, where it is
never consulted. -/
def processJavaMember : JMember → Option String → Option CNode
  | .classDecl kind name pos doc ann body, _ =>
    let start := jLineRange pos
    let kids := jProcessBody body kind.toType
    some (.mk
      { title := name, type := kind.toType, startLine := start,
        endLine := max start (jMaxChildEnd start kids),
        docstring := doc, decorators := some ann }
      (some kids))
  | .methodDecl isCtor name params returnType pos doc ann body, _ =>
    let start := jLineRange pos
    some (.mk
      { title := name ++ "()", type := "method", startLine := start,
        endLine := jMethodEnd start body,
        signature := some (jSignature isCtor name params returnType),
        docstring := doc, decorators := some ann }
      (some []))
  | .otherMember, _ => none

def jProcessBody : List JMember → String → List CNode
  | [], _ => []
  | m :: rest, pt =>
    (match processJavaMember m (some pt) with
      | some n => [n]
      | none => []) ++ jProcessBody rest pt

end

/-- `extract_nodes_from_java` (lines 14-146) on an already-parsed
compilation unit: the single import run (if any) becomes one `imports`
node spanning first-to-last import position, then the top-level type
declarations are processed. -/
def extract_nodes_from_java (imports : List (Option Nat))
    (types : List JMember) : List CNode :=
  (match imports with
    | [] => []
    | first :: restImp =>
      [CNode.mk
        { title := "Imports", type := "imports",
          startLine := jLineRange first,
          endLine := jLineRange ((first :: restImp).getLast?.getD first) }
        (some [])]) ++
  types.filterMap (fun t => processJavaMember t none)

mutual

/-- Provider contract for the coarse AST: every declaration carries a
position, and positions never decrease when descending into a body. -/
def JMember.wfFrom : Nat → JMember → Bool
  | lo, .classDecl _ _ pos _ _ body =>
    match pos with
    | none => false
    | some p => decide (lo ≤ p) && jBodyWf p body
  | lo, .methodDecl _ _ _ _ pos _ _ body =>
    match pos with
    | none => false
    | some p =>
      decide (lo ≤ p) &&
        body.all fun st =>
          match st.position with
          | some q => decide (p ≤ q)
          | none => false
  | _, .otherMember => true

def jBodyWf : Nat → List JMember → Bool
  | _, [] => true
  | p, m :: rest => JMember.wfFrom p m && jBodyWf p rest

end

/-- The subdeclarations of a `javalang` member (class bodies only). -/
def JMember.subs : JMember → List JMember
  | .classDecl _ _ _ _ _ b => b
  | _ => []

/-- Nondecreasing list of (defaulted) line numbers. -/
def natMono : List Nat → Bool
  | [] => true
  | [_] => true
  | a :: b :: rest => decide (a ≤ b) && natMono (b :: rest)

/-!
## Spanned-CST extractor (`page_index_cpp.py`)

Tree-sitter is an external provider: a CST node carries a kind string, an
exact row span, its ordered children, and the rendered texts of its
`name` / `declarator` field lookups (the `.text.decode('utf8')` calls).
`process_node` materializes only the mapped kinds; an unmapped node is
flattened: its children's results are spliced into the nearest
materialized ancestor.
-/
/-- A tree-sitter CST node (provider input). -/
inductive TSNode where
  | mk (kind : String) (startRow endRow : Nat)
      (nameText declText : Option String) (children : List TSNode)
  deriving Repr

def TSNode.kind : TSNode → String
  | .mk k _ _ _ _ _ => k

def TSNode.startRow : TSNode → Nat
  | .mk _ s _ _ _ _ => s

def TSNode.endRow : TSNode → Nat
  | .mk _ _ e _ _ _ => e

def TSNode.nameText : TSNode → Option String
  | .mk _ _ _ n _ _ => n

def TSNode.declText : TSNode → Option String
  | .mk _ _ _ _ d _ => d

def TSNode.children : TSNode → List TSNode
  | .mk _ _ _ _ _ c => c

/-- Is this CST kind in the extractor's mapping (lines 49-74)? -/
def tsMappedKind (k : String) : Bool :=
  k = "function_definition" || k = "template_function" ||
    k = "class_specifier" || k = "struct_specifier" ||
    k = "namespace_definition"

mutual

/-- `process_node` of `page_index_cpp.py` (lines 39-113).  A mapped node
returns a singleton (the Python dict), an unmapped node returns the
flattened list of its children's results. -/
def processCppNode : TSNode → Option String → List CNode
  | .mk kind sRow eRow nameText declText children, parentType =>
    if kind = "function_definition" ∨ kind = "template_function" then
      let mappedType :=
        if parentType = some "class" ∨ parentType = some "struct"
          then "method" else "function"
      let title :=
        match declText with
        | some t => t ++ "()"
        | none => mappedType
      [CNode.mk
        { title := title, type := mappedType,
          startLine := sRow + 1, endLine := eRow + 1 }
        (some (processCppChildren children (some mappedType)))]
    else if kind = "class_specifier" ∨ kind = "struct_specifier" then
      let mappedType :=
        if kind = "struct_specifier" then "struct" else "class"
      let title :=
        match nameText with
        | some t => t
        | none => "<anonymous>"
      [CNode.mk
        { title := title, type := mappedType,
          startLine := sRow + 1, endLine := eRow + 1 }
        (some (processCppChildren children (some mappedType)))]
    else if kind = "namespace_definition" then
      let title :=
        match nameText with
        | some t => t
        | none => "namespace"
      [CNode.mk
        { title := title, type := "namespace",
          startLine := sRow + 1, endLine := eRow + 1 }
        (some (processCppChildren children (some "namespace")))]
    else
      processCppChildren children parentType

def processCppChildren : List TSNode → Option String → List CNode
  | [], _ => []
  | c :: rest, pt => processCppNode c pt ++ processCppChildren rest pt

end

/-- `extract_nodes_from_cpp` (lines 17-122) on an already-parsed tree:
process the root (the root's kind, `translation_unit`, is unmapped, so the
root handling lines 116-120 is exactly the flattening of its children). -/
def extract_nodes_from_cpp (root : TSNode) : List CNode :=
  processCppNode root none

mutual

/-- Tree-sitter's span contract: `start ≤ end` and every child's span lies
within its parent's span. -/
def TSNode.wfB : TSNode → Bool
  | .mk _ sRow eRow _ _ children =>
    decide (sRow ≤ eRow) && tsChildrenWfB sRow eRow children

def tsChildrenWfB : Nat → Nat → List TSNode → Bool
  | _, _, [] => true
  | s, e, c :: rest =>
    decide (s ≤ c.startRow) && decide (c.endRow ≤ e) && c.wfB &&
      tsChildrenWfB s e rest

end

/-!
## Heuristic scope scanner (`page_index_kotlin.py`)

The scanner takes raw source lines.  Its three regular expressions and
`count_braces` are modelled at character level:

* `class_pattern = ^\s*(private|public|protected|internal)?\s*
  (open|data|sealed|annotation|inner)?\s*(class|interface|object|
  enum\s+class)\s+([a-zA-Z0-9_]+)` — anchored, so `re.search` behaves as a
  prefix match.  The optional keyword groups are modelled as committed
  choices: committing is equivalent to Python's backtracking here because
  no alternative of a later element shares a first-character-compatible
  literal with any alternative of an earlier optional group (e.g. no kind
  keyword begins any visibility keyword), so whenever the committed parse
  fails the skipped parse fails too.
* `fun_pattern = ^\s*(private|public|protected|internal|override|suspend|
  abstract|open|inline)*\s*fun\s+([a-zA-Z0-9_\x60]+)` — note the starred
  group repeats with no separator, exactly as in the source; the greedy
  star is likewise an exact model because no modifier keyword starts with
  the letters of `fun`.
* `import_pattern = ^\s*import\s+`, matched against the stripped line.
-/
/-- Python `\s` (the line itself never contains a newline, which is still
harmless to include). -/
def pySpace (c : Char) : Bool :=
  c = ' ' || c = '\t' || c = '\n' || c = '\r' ||
    c = Char.ofNat 11 || c = Char.ofNat 12

/-- Python `str.strip()`. -/
def pyStripList (cs : List Char) : List Char :=
  ((cs.dropWhile pySpace).reverse.dropWhile pySpace).reverse

def pyStripStr (s : String) : String := String.mk (pyStripList s.toList)

/-- Match a literal keyword at the head, returning the rest. -/
def dropKw (k : String) (cs : List Char) : Option (List Char) :=
  if k.toList.isPrefixOf cs then some (cs.drop k.toList.length) else none

/-- First matching alternative of a keyword alternation. -/
def tryKws : List String → List Char → Option (List Char)
  | [], _ => none
  | k :: rest, cs =>
    match dropKw k cs with
    | some r => some r
    | none => tryKws rest cs

/-- A committed optional keyword group `(k1|k2|...)?`. -/
def dropOptKw (kws : List String) (cs : List Char) : List Char :=
  match tryKws kws cs with
  | some r => r
  | none => cs

/-- `\s+`: at least one whitespace character, consumed greedily. -/
def wsPlus : List Char → Option (List Char)
  | [] => none
  | c :: rest => if pySpace c then some (rest.dropWhile pySpace) else none

/-- `[a-zA-Z0-9_]`. -/
def isNameChar (c : Char) : Bool := c.isAlpha || c.isDigit || c = '_'

/-- `[a-zA-Z0-9_\x60]` (the function-name class also admits a backtick). -/
def isFunNameChar (c : Char) : Bool := isNameChar c || c = Char.ofNat 96

/-- The keyword that matched group 3 of `class_pattern`. -/
inductive KClassTok where
  | clsTok
  | ifaceTok
  | objTok
  | enumTok
  deriving Repr, DecidableEq

/-- Lines 107-113: classify the matched kind keyword into a node type. -/
def kClassTokType : KClassTok → String
  | .clsTok => "class"
  | .ifaceTok => "interface"
  | .objTok => "object"
  | .enumTok => "enum"

/-- The tail of `class_pattern` after group 3: `\s+([a-zA-Z0-9_]+)`. -/
def classNameTail (tok : KClassTok) (cs : List Char) :
    Option (KClassTok × String) :=
  match wsPlus cs with
  | none => none
  | some r =>
    let name := r.takeWhile isNameChar
    if name = [] then none else some (tok, String.mk name)

/-- `class_pattern.search(line)`: returns the matched kind and name. -/
def classMatch (line : String) : Option (KClassTok × String) :=
  let cs := line.toList.dropWhile pySpace
  let cs := dropOptKw ["private", "public", "protected", "internal"] cs
  let cs := cs.dropWhile pySpace
  let cs := dropOptKw ["open", "data", "sealed", "annotation", "inner"] cs
  let cs := cs.dropWhile pySpace
  match dropKw "class" cs with
  | some r => classNameTail .clsTok r
  | none =>
    match dropKw "interface" cs with
    | some r => classNameTail .ifaceTok r
    | none =>
      match dropKw "object" cs with
      | some r => classNameTail .objTok r
      | none =>
        match dropKw "enum" cs with
        | some r =>
          match wsPlus r with
          | none => none
          | some r2 =>
            match dropKw "class" r2 with
            | some r3 => classNameTail .enumTok r3
            | none => none
        | none => none

/-- The modifier alternatives of `fun_pattern`'s starred group. -/
def kotlinFunMods : List String :=
  ["private", "public", "protected", "internal", "override", "suspend",
    "abstract", "open", "inline"]

/-- The greedy starred modifier group of `fun_pattern`: strip modifier
keywords (with no separator between repetitions) as long as one matches.
Each successful match strictly shortens the input
(`tryKws_some_shorter`), so `cs.length` steps of fuel are exact: when the
fuel is exhausted the input is empty and no keyword matches anyway. -/
def starModsGo : Nat → List Char → List Char
  | 0, cs => cs
  | fuel + 1, cs =>
    match tryKws kotlinFunMods cs with
    | some r => starModsGo fuel r
    | none => cs

def starMods (cs : List Char) : List Char := starModsGo cs.length cs

/-- `fun_pattern.search(line)`: returns the matched function name. -/
def funMatch (line : String) : Option String :=
  let cs := line.toList.dropWhile pySpace
  let cs := starMods cs
  let cs := cs.dropWhile pySpace
  match dropKw "fun" cs with
  | none => none
  | some r =>
    match wsPlus r with
    | none => none
    | some r2 =>
      let name := r2.takeWhile isFunNameChar
      if name = [] then none else some (String.mk name)

/-- `import_pattern.match(stripped_line)`. -/
def importMatch (stripped : String) : Bool :=
  let cs := stripped.toList.dropWhile pySpace
  match dropKw "import" cs with
  | some r =>
    match r with
    | c :: _ => pySpace c
    | [] => false
  | none => false

/-- `re.sub(r'//.*', '', line)`: cut everything from the first `//`. -/
def stripLineComment : List Char → List Char
  | [] => []
  | '/' :: '/' :: _ => []
  | c :: rest => c :: stripLineComment rest

/-- `re.sub(r'Q.*?Q', 'QQ', s)` for a quote character `Q`, as a single
left-to-right scan: outside a literal, copy; at an opening quote start
buffering the raw characters; at the closing quote emit `QQ` (contents
blanked); an unpaired trailing quote and everything after it are left
untouched, exactly as `re.sub` leaves an unmatched tail.  The buffer is
kept reversed (`c :: buf`). -/
def blankGo (q : Char) : List Char → Option (List Char) → List Char
  | [], none => []
  | [], some buf => buf.reverse
  | c :: rest, none =>
    if c = q then blankGo q rest (some [c]) else c :: blankGo q rest none
  | c :: rest, some buf =>
    if c = q then q :: q :: blankGo q rest none
    else blankGo q rest (some (c :: buf))

def blankQuoted (q : Char) (cs : List Char) : List Char := blankGo q cs none

/-- `count_braces` (lines 35-41): strip `//` comments, blank double- then
single-quoted literal contents, then count `{` minus `}`. -/
def count_braces (line : String) : Int :=
  let l1 := stripLineComment line.toList
  let l2 := blankQuoted '"' l1
  let l3 := blankQuoted (Char.ofNat 39) l2
  (l3.count '{' : Int) - (l3.count '}' : Int)

/-- `line.split('{')[0].strip()`, with a trailing `=` (single-expression
functions) removed and the remainder stripped again (lines 129-132). -/
def kotlinFunSignature (line : String) : String :=
  let s := pyStripList (line.toList.takeWhile fun c => c ≠ '{')
  match s.getLast? with
  | some c =>
    if c = '=' then String.mk (pyStripList s.dropLast) else String.mk s
  | none => String.mk s

/-- An open scope frame: the node under construction (lines 119-145), the
balance at which its scope closes (line 172), the completed children
collected so far, and — for frames opened at the top level — the position
in the root list that `nodes.append(new_node)` reserved at creation
time. -/
structure KFrame where
  title : String
  ntype : String
  startLine : Nat
  signature : Option String
  startBalance : Int
  children : List CNode
  rootIdx : Nat
  deriving Repr

/-- The scanner's mutable state: finished root nodes, the scope-frame
stack (innermost first), the running brace balance, and the
open import-run window. -/
structure KState where
  roots : List CNode
  stack : List KFrame
  balance : Int
  impStart : Option Nat
  impEnd : Option Nat
  deriving Repr

/-- The flushed `imports` node (lines 56-63 and 179-186). -/
def kImportsNode (s e : Nat) : CNode :=
  .mk { title := "Imports", type := "imports", startLine := s, endLine := e }
    (some [])

/-- The canonical node a frame denotes once its scope ends at `endLine`
(Python mutates `end_line` in place; unclosed frames keep their interim
`end_line = start_line`). -/
def kCloseFrame (f : KFrame) (endLine : Nat) : CNode :=
  .mk { title := f.title, type := f.ntype, startLine := f.startLine,
        endLine := endLine, signature := f.signature }
    (some f.children)

/-- Attach a finished subtree: to the enclosing frame's children, or—for a
bottom frame—into the root list at the slot reserved at creation (Python
appends the node object at creation and mutates it; attaching the final
value at the recorded index yields the same list). -/
def kAttach (st : KState) (f : KFrame) (tree : CNode)
    (restStack : List KFrame) : KState :=
  match restStack with
  | [] => { st with stack := [], roots := st.roots.insertIdx f.rootIdx tree }
  | g :: gs =>
    { st with stack := { g with children := g.children ++ [tree] } :: gs }

/-- The scope-closing loop (lines 80-91), written as structural recursion
over the stack: the popped frame's finished tree is carried down and
attached to the next frame (or to the root slot reserved at creation),
which is then itself tested against the balance. -/
def kPopAttach (lineNum : Nat) (balance : Int) :
    List KFrame → CNode → Nat → List CNode → List KFrame × List CNode
  | [], tree, idx, roots => ([], roots.insertIdx idx tree)
  | g :: gs, tree, _, roots =>
    let g2 := { g with children := g.children ++ [tree] }
    if balance ≤ g2.startBalance then
      kPopAttach lineNum balance gs (kCloseFrame g2 lineNum) g2.rootIdx roots
    else (g2 :: gs, roots)

/-- Lines 80-91: the while loop popping closed scopes. -/
def kPopLoop (lineNum : Nat) (st : KState) : KState :=
  match st.stack with
  | [] => st
  | f :: rest =>
    if st.balance ≤ f.startBalance then
      let p := kPopAttach lineNum st.balance rest (kCloseFrame f lineNum)
        f.rootIdx st.roots
      { st with stack := p.1, roots := p.2 }
    else st

/-- Flush an open import run into an `imports` node appended to the root
list (both window fields are always set together in the source). -/
def kFlushImports (st : KState) : KState :=
  match st.impStart, st.impEnd with
  | some s, some e =>
    { st with
      roots := st.roots ++ [kImportsNode s e],
      impStart := none,
      impEnd := none }
  | _, _ => st

/-- Push the newly created node's frame (lines 147-176): baseline is the
balance after this line, minus one if the raw line contains `{`. -/
def kPush (st : KState) (lineNum : Nat) (line : String)
    (title ntype : String) (sig : Option String) : KState :=
  let sb := st.balance - (if line.toList.contains '{' then 1 else 0)
  { st with
    stack :=
      { title := title, ntype := ntype, startLine := lineNum,
        signature := sig, startBalance := sb, children := [],
        rootIdx := st.roots.length } :: st.stack }

/-- Kinds that make a detected `fun` a `method` (line 144). -/
def kClassLikeTypes : List String := ["class", "interface", "object", "enum"]

/-- `import_pattern.match(line.strip())` (lines 45-48). -/
def kIsImportLine (line : String) : Bool :=
  importMatch (String.mk (pyStripList line.toList))

/-- Lines 48-51: extend (or open) the open import-run window. -/
def kImportUpdate (st : KState) (lineNum : Nat) : KState :=
  { st with
    impStart := some (st.impStart.getD lineNum),
    impEnd := some lineNum }

/-- Line 53: a non-blank, non-comment, non-package line flushes any
open import run before declaration processing. -/
def kFlushCond (line : String) : Bool :=
  let strippedCs := pyStripList line.toList
  !strippedCs.isEmpty && !("//".toList.isPrefixOf strippedCs) &&
    !("package".toList.isPrefixOf strippedCs)

/-- Lines 53-91 for a non-import line: conditional import flush, then the
running-balance update with this line's stripped brace delta, then the
scope-closing loop. -/
def kLineCore (st : KState) (lineNum : Nat) (line : String) : KState :=
  let st1 := if kFlushCond line then kFlushImports st else st
  kPopLoop lineNum { st1 with balance := st1.balance + count_braces line }

/-- Lines 96-176: declaration detection and frame push.  `match_class` is
tested first; only if it fails is `match_fun` consulted (`if match_class:
... elif match_fun: ...`). -/
def kDetect (st3 : KState) (lineNum : Nat) (line : String) : KState :=
  match classMatch line with
  | some (tok, name) =>
    kPush st3 lineNum line name (kClassTokType tok) none
  | none =>
    match funMatch line with
    | some name =>
      let ntype :=
        match st3.stack with
        | f :: _ => if f.ntype ∈ kClassLikeTypes then "method"
            else "function"
        | [] => "function"
      kPush st3 lineNum line (name ++ "()") ntype
        (some (kotlinFunSignature line))
    | none => st3

/-- One line of the scanner loop (lines 43-176): import accounting, flush,
balance update, scope closing, declaration detection, frame push. -/
def kProcessLine (st : KState) (lineNum : Nat) (line : String) : KState :=
  if kIsImportLine line then kImportUpdate st lineNum
  else kDetect (kLineCore st lineNum line) lineNum line

/-- Scan the lines in order; `i` counts lines already processed, so the
current line number is `i + 1`. -/
def kScanLines : KState → Nat → List String → KState
  | st, _, [] => st
  | st, i, line :: rest => kScanLines (kProcessLine st (i + 1) line) (i + 1) rest

/-- End-of-file: frames never popped keep their interim
`end_line = start_line`; their accumulated children stay attached, and
each still-open frame is the last child of the frame below it. -/
def kFinAttach : List KFrame → CNode → Nat → List CNode → List CNode
  | [], tree, idx, roots => roots.insertIdx idx tree
  | g :: gs, tree, _, roots =>
    let g2 := { g with children := g.children ++ [tree] }
    kFinAttach gs (kCloseFrame g2 g2.startLine) g2.rootIdx roots

def kFinalize (st : KState) : KState :=
  match st.stack with
  | [] => st
  | f :: rest =>
    { st with
      stack := [],
      roots := kFinAttach rest (kCloseFrame f f.startLine) f.rootIdx
        st.roots }

def kInitState : KState :=
  { roots := [], stack := [], balance := 0, impStart := none,
    impEnd := none }

/-- The state after the line loop and the trailing import flush (lines
178-186), before unclosed frames are finalized.  Its `stack` is empty
exactly when every opened scope was closed by the scan. -/
def kotlinScanEndState (lines : List String) : KState :=
  kFlushImports (kScanLines kInitState 0 lines)

/-- The scanner's final state: scan all lines, flush a trailing import
run, finalize unclosed frames. -/
def kotlinScanState (lines : List String) : KState :=
  kFinalize (kotlinScanEndState lines)

/-- `extract_nodes_from_kotlin` (lines 4-188). -/
def extract_nodes_from_kotlin (lines : List String) : List CNode :=
  (kotlinScanState lines).roots

/-- Completed root trees are sorted, nested, and ended by line `t`. -/
def RootsGood (t : Nat) (roots : List CNode) : Prop :=
  ∀ c ∈ roots, c.sortedB = true ∧ c.nestedB = true ∧ c.fields.endLine ≤ t

/-- An open frame opened by line `tf` whose completed children are sorted,
nested, start strictly inside the frame, and ended by line `tc`. -/
def FrameGood (tf tc : Nat) (f : KFrame) : Prop :=
  f.startLine ≤ tf ∧
    ∀ c ∈ f.children, c.sortedB = true ∧ c.nestedB = true ∧
      f.startLine < c.fields.startLine ∧ c.fields.endLine ≤ tc

/-- The scope stack invariant: every frame is good, reserved root slots
are in bounds, and start lines strictly decrease downwards (each frame
was opened strictly inside the one below it). -/
def StackInv (tf tc rl : Nat) : List KFrame → Prop
  | [] => True
  | f :: rest =>
    FrameGood tf tc f ∧ f.rootIdx ≤ rl ∧
      (∀ g ∈ rest.head?, g.startLine < f.startLine) ∧
      StackInv tf tc rl rest

/-- The import window is either closed or spans `s ≤ e ≤ t` (both fields
are always set together in the source). -/
def ImpInv (t : Nat) (st : KState) : Prop :=
  match st.impStart, st.impEnd with
  | none, none => True
  | some s, some e => s ≤ e ∧ e ≤ t
  | _, _ => False

/-- The whole scanner invariant after `t` processed lines. -/
def KInv (t : Nat) (st : KState) : Prop :=
  RootsGood t st.roots ∧ StackInv t t st.roots.length st.stack ∧
    ImpInv t st

/-- A raw line with `//` comments removed and double- then single-quoted
literal contents blanked — the cleaning `count_braces` applies. -/
def kotlinCleanLine (line : String) : String :=
  String.mk (blankQuoted (Char.ofNat 39)
    (blankQuoted '"' (stripLineComment line.toList)))

/-- Declaration detection as the claim describes it: the class-like and
function-like patterns see the cleaned line, and the opening-brace
baseline adjustment checks the cleaned line. -/
def kDetectClaimed (st3 : KState) (lineNum : Nat) (line : String) :
    KState :=
  let clean := kotlinCleanLine line
  match classMatch clean with
  | some (tok, name) =>
    kPush st3 lineNum clean name (kClassTokType tok) none
  | none =>
    match funMatch clean with
    | some name =>
      let ntype :=
        match st3.stack with
        | f :: _ => if f.ntype ∈ kClassLikeTypes then "method"
            else "function"
        | [] => "function"
      kPush st3 lineNum clean (name ++ "()") ntype
        (some (kotlinFunSignature line))
    | none => st3

/-- One scanner line as the claim describes it: comment/string stripping
happens before the import match, the balance update, the baseline
adjustment and the declaration patterns. -/
def kProcessLineClaimed (st : KState) (lineNum : Nat) (line : String) :
    KState :=
  if kIsImportLine (kotlinCleanLine line) then kImportUpdate st lineNum
  else kDetectClaimed (kLineCore st lineNum line) lineNum line

def kScanLinesClaimed : KState → Nat → List String → KState
  | st, _, [] => st
  | st, i, line :: rest =>
    kScanLinesClaimed (kProcessLineClaimed st (i + 1) line) (i + 1) rest

/-- The whole scanner under the claim's reading of step 1 (stripping
before every per-line use). -/
def kotlinScanClaimed (lines : List String) : List CNode :=
  (kFinalize (kFlushImports (kScanLinesClaimed kInitState 0 lines))).roots

/-!
## Thinning, summarization and composition (`page_index_code.py`)

The token counter (`count_tokens`) and the model call
(`ChatGPT_API_async`) are external collaborators (spec section 6) and
appear as function parameters.  `structure_to_list` and `write_node_id`
live in `utils.py`, which is not part of the core sources; the flatten is
modelled from the spec ("flattens the (already thinned) tree", section
4.7) as a pre-order traversal.
-/
mutual

/-- `get_node_tokens` (lines 158-164): the node's own text tokens (zero
for a falsy text) plus the sum over `node.get('nodes', [])`. -/
def get_node_tokens (tok : String → Nat) : CNode → Nat
  | .mk f k =>
    (if f.text.getD "" ≠ "" then tok (f.text.getD "") else 0) +
      tokensOpt tok k

def tokensOpt (tok : String → Nat) : Option (List CNode) → Nat
  | none => 0
  | some l => tokensList tok l

def tokensList (tok : String → Nat) : List CNode → Nat
  | [] => 0
  | c :: cs => get_node_tokens tok c + tokensList tok cs

end

/-- Does a string end with a newline (Python `str.endswith('\n')`)? -/
def endsWithNewline (s : String) : Bool :=
  s.toList.getLast? = some '\n'

/-- The merge loop of `thin_node` (lines 179-185): concatenate children's
texts after the node's own, inserting a newline separator when the
accumulator is nonempty and not already newline-terminated. -/
def mergeText : String → List CNode → String
  | acc, [] => acc
  | acc, c :: cs =>
    let ct := c.fields.text.getD ""
    if ct ≠ "" then
      let acc2 :=
        if acc ≠ "" ∧ ¬ endsWithNewline acc then acc ++ "\n" else acc
      mergeText (acc2 ++ ct) cs
    else mergeText acc cs

/-- The node kinds thinning may merge (line 177). -/
def thinTypes : List String := ["class", "function", "method"]

mutual

/-- `thin_node` (lines 166-190): nodes without children (no `nodes` key or
an empty list) are returned unchanged; otherwise children are thinned
first, and if the total token count is below the threshold and the kind
is mergeable, the children are merged into `text` and the `nodes` key is
deleted. -/
def thin_node (tok : String → Nat) (thr : Nat) : CNode → CNode
  | .mk f none => .mk f none
  | .mk f (some []) => .mk f (some [])
  | .mk f (some (c :: cs)) =>
    let kids := thin_node tok thr c :: thinList tok thr cs
    if get_node_tokens tok (.mk f (some kids)) < thr ∧
        f.type ∈ thinTypes then
      .mk { f with text := some (mergeText (f.text.getD "") kids) } none
    else
      .mk f (some kids)

def thinList (tok : String → Nat) (thr : Nat) : List CNode → List CNode
  | [] => []
  | c :: cs => thin_node tok thr c :: thinList tok thr cs

end

/-- `tree_thinning_for_code` (lines 153-192). -/
def tree_thinning_for_code (tok : String → Nat) (thr : Nat)
    (tree : CNode) : CNode :=
  thin_node tok thr tree

mutual

/-- Modelled from the spec: `structure_to_list` of `utils.py` (not among
the core sources) flattens the tree; spec section 4.7 ("Flattens the
(already thinned) tree").  Pre-order traversal. -/
def flattenNode : CNode → List CNode
  | .mk f k => .mk f k :: flattenOpt k

def flattenOpt : Option (List CNode) → List CNode
  | none => []
  | some l => flattenList l

def flattenList : List CNode → List CNode
  | [] => []
  | c :: cs => flattenNode c ++ flattenList cs

end

/-- The kinds filtered for summarization (line 229). -/
def summaryTypes : List String :=
  ["class", "function", "method", "interface", "enum", "file"]

/-- The filtered `code_nodes` list (lines 226-229). -/
def codeNodes (tree : CNode) : List CNode :=
  (flattenNode tree).filter fun n => n.fields.type ∈ summaryTypes

/-- `asyncio.gather` over fallible per-node requests: the whole batch
fails if any single request fails (fail-fast, no partial results). -/
def gatherE {E α : Type} : List (Except E α) → Except E (List α)
  | [] => .ok []
  | .error e :: _ => .error e
  | .ok a :: rest =>
    match gatherE rest with
    | .error e => .error e
    | .ok l => .ok (a :: l)

mutual

/-- The assignment loop (lines 234-238), applied only after every request
succeeded: a filtered node with a truthy `nodes` list receives
`prefix_summary`, a childless one receives `summary`; the summary text is
the (successful) per-node request result. -/
def assignNode {E : Type} (summ : CNode → Except E String) :
    CNode → CNode
  | .mk f k =>
    let kids := assignOpt summ k
    if f.type ∈ summaryTypes then
      let v :=
        match summ (.mk f k) with
        | .ok s => s
        | .error _ => ""
      if (k.getD []).isEmpty then
        .mk { f with summary := some v } kids
      else
        .mk { f with prefixSummary := some v } kids
    else
      .mk f kids

def assignOpt {E : Type} (summ : CNode → Except E String) :
    Option (List CNode) → Option (List CNode)
  | none => none
  | some l => some (assignList summ l)

def assignList {E : Type} (summ : CNode → Except E String) :
    List CNode → List CNode
  | [] => []
  | c :: cs => assignNode summ c :: assignList summ cs

end

/-- `generate_summaries_for_code_structure` (lines 224-240):
`get_code_node_summary` is the per-node collaborator call `summ` (it may
fail); all requests are gathered as one batch, and only on full success
does the assignment loop run. -/
def generate_summaries_for_code_structure {E : Type}
    (summ : CNode → Except E String) (tree : CNode) :
    Except E CNode :=
  match gatherE ((codeNodes tree).map summ) with
  | .error e => .error e
  | .ok _ => .ok (assignNode summ tree)

mutual

/-- `preserve_imports_text` (lines 361-376): every `imports` node gets its
stripped text copied into `summary`, unconditionally. -/
def preserve_imports_text : CNode → CNode
  | .mk f k =>
    let f2 :=
      if f.type = "imports" then
        { f with summary := some (pyStripStr (f.text.getD "")) }
      else f
    .mk f2 (preserveOpt k)

def preserveOpt : Option (List CNode) → Option (List CNode)
  | none => none
  | some l => some (preserveList l)

def preserveList : List CNode → List CNode
  | [] => []
  | c :: cs => preserve_imports_text c :: preserveList cs

end

/-- The summarization stage of `code_to_tree` when
`if_add_node_summary='yes'` and every request succeeds
(lines 305-310): `generate_summaries_for_code_structure` followed by the
unconditional `preserve_imports_text`. -/
def summarizeStage (summarize : CNode → String) (tree : CNode) :
    CNode :=
  preserve_imports_text
    (match generate_summaries_for_code_structure
        (fun n => (Except.ok (summarize n) : Except Unit String))
        tree with
      | .ok t2 => t2
      | .error _ => tree)

/-!
## Dispatch and directory composition (`page_index_code.py`, lines
64-127 and 271-286)

The four per-language file builders open files and call external parsers;
they are abstracted as parameters (`bj`, `bk`, `bc`, `bp`) returning
`none` for unreadable files, exactly as the sources return `None` on
`IOError`/`UnicodeDecodeError`.  The directory listing is modelled as a
list of named entries (Python sorts it; no claim depends on the order).
-/
/-- A directory entry as seen by `os.listdir` + `os.path.isdir`. -/
inductive FSItem where
  | file (name : String)
  | dir (name : String) (items : List FSItem)

def FSItem.name : FSItem → String
  | .file n => n
  | .dir n _ => n

/-- The extensions `code_to_tree` and `build_directory_tree` accept
(lines 111 and 275). -/
def supportedExts : List String :=
  [".py", ".java", ".kt", ".c", ".h", ".cpp", ".hpp", ".cc", ".cxx"]

def hasSupportedExt (name : String) : Bool :=
  supportedExts.any fun e => e.toList.isSuffixOf name.toList

/-- The skip rule of the traversal (line 106): hidden entries and common
non-source directories. -/
def skippedEntry (name : String) : Bool :=
  ".".toList.isPrefixOf name.toList ||
    name ∈ ["__pycache__", "node_modules", "venv", ".venv", "env", ".env",
      ".git", "target", "build", "out"]

/-- `build_file_tree` (lines 64-75): extension dispatch to the four
builders; unsupported extensions yield `None`. -/
def build_file_tree (bj bk bc bp : String → Option CNode)
    (path : String) : Option CNode :=
  if ".java".toList.isSuffixOf path.toList then bj path
  else if ".kt".toList.isSuffixOf path.toList then bk path
  else if ([".c", ".h", ".cpp", ".hpp", ".cc", ".cxx"].any
      fun e => e.toList.isSuffixOf path.toList) then bc path
  else if ".py".toList.isSuffixOf path.toList then bp path
  else none

/-- The file paths a directory traversal hands to `build_file_tree`
(lines 102-112): entries that are files, not skipped, with a supported
extension. -/
def dirFilePaths (dirPath : String) (items : List FSItem) : List String :=
  items.filterMap fun it =>
    match it with
    | .file n =>
      if ¬ skippedEntry n ∧ hasSupportedExt n then
        some (dirPath ++ "/" ++ n)
      else none
    | .dir _ _ => none

/-- The subdirectories a traversal recurses into (lines 102-110). -/
def dirSubdirs (items : List FSItem) : List FSItem :=
  items.filter fun it =>
    match it with
    | .file _ => false
    | .dir n _ => ¬ skippedEntry n

mutual

/-- `has_code_content` (lines 130-139). -/
def has_code_content : CNode → Bool
  | .mk f k => f.type = "file" || hasCodeOpt k

def hasCodeOpt : Option (List CNode) → Bool
  | none => false
  | some l => hasCodeList l

def hasCodeList : List CNode → Bool
  | [] => false
  | c :: cs => has_code_content c || hasCodeList cs

end

mutual

/-- `build_directory_tree` (lines 78-127) on one directory entry:
subdirectory nodes first (each kept only when it transitively contains a
code file), then file nodes (builder failures silently dropped).  The
traversal never calls it on a plain file, hence `none` there. -/
def buildDirItem (bj bk bc bp : String → Option CNode)
    (dirPath : String) : FSItem → Option CNode
  | .file _ => none
  | .dir n items =>
    let path := dirPath ++ "/" ++ n
    some (.mk { title := n, type := "directory", path := some path }
      (some
        (buildSubdirs bj bk bc bp path items ++
          (dirFilePaths path items).filterMap
            (build_file_tree bj bk bc bp))))

def buildSubdirs (bj bk bc bp : String → Option CNode) (path : String) :
    List FSItem → List CNode
  | [] => []
  | it :: rest =>
    (if skippedEntry it.name then []
     else
       match buildDirItem bj bk bc bp path it with
       | some nd => if has_code_content nd then [nd] else []
       | none => []) ++
      buildSubdirs bj bk bc bp path rest

end

/-- The target `code_to_tree` was pointed at (lines 274-283):
`os.path.isfile`, `os.path.isdir`, or neither. -/
inductive PathTarget where
  | fileT (path : String)
  | dirT (name : String) (items : List FSItem)
  | missing (path : String)

/-- The entry checks of `code_to_tree` (lines 271-286): a directly named
file with an unsupported extension is rejected with
`File extension not supported`; a directory is traversed (total, never an
error); a missing path is rejected. -/
def code_to_tree_entry (bj bk bc bp : String → Option CNode) :
    PathTarget → Except String CNode
  | .fileT p =>
    if ¬ hasSupportedExt p then .error "File extension not supported"
    else
      match build_file_tree bj bk bc bp p with
      | some st => .ok st
      | none => .error ("Failed to process path: " ++ p)
  | .dirT n items =>
    match buildDirItem bj bk bc bp "" (.dir n items) with
    | some nd => .ok nd
    | none => .error ("Failed to process path: " ++ n)
  | .missing p => .error ("Path does not exist: " ++ p)

/-!
## C1 machinery: the per-node summary dichotomy after the summarization
stage
-/
mutual

/-- No node anywhere in this tree carries a `summary` or a
`prefix_summary` — the state in which the extractors and the thinning
stage hand the tree to the summarization stage. -/
def noSummN : CNode → Bool
  | .mk f k => f.summary.isNone && f.prefixSummary.isNone && noSummO k

def noSummO : Option (List CNode) → Bool
  | none => true
  | some l => noSummL l

def noSummL : List CNode → Bool
  | [] => true
  | c :: cs => noSummN c && noSummL cs

end

/-- The per-node condition that actually holds after the summarization
stage: an `imports` node carries a `summary` (children or not), a node of
a summarizable kind carries exactly the field chosen by its children
(`summary` for a leaf, `prefix_summary` otherwise), and every other node
carries neither field. -/
def c1Fields (f : CFields) (k : Option (List CNode)) : Bool :=
  if f.type = "imports" then f.summary.isSome && f.prefixSummary.isNone
  else if f.type ∈ summaryTypes then
    if (k.getD []).isEmpty then f.summary.isSome && f.prefixSummary.isNone
    else f.prefixSummary.isSome && f.summary.isNone
  else f.summary.isNone && f.prefixSummary.isNone

mutual

/-- The amended C1 condition at every node of a tree. -/
def c1PostN : CNode → Bool
  | .mk f k => c1Fields f k && c1PostO k

def c1PostO : Option (List CNode) → Bool
  | none => true
  | some l => c1PostL l

def c1PostL : List CNode → Bool
  | [] => true
  | c :: cs => c1PostN c && c1PostL cs

end

/-- The per-node condition exactly as the claim states it: every node
carries exactly one of `summary`/`prefix_summary`, `prefix_summary` when
it has children and `summary` when it is a leaf. -/
def c1ClaimFields (f : CFields) (k : Option (List CNode)) : Bool :=
  if (k.getD []).isEmpty then f.summary.isSome && f.prefixSummary.isNone
  else f.prefixSummary.isSome && f.summary.isNone

mutual

/-- The claimed C1 condition at every node of a tree. -/
def c1ClaimN : CNode → Bool
  | .mk f k => c1ClaimFields f k && c1ClaimO k

def c1ClaimO : Option (List CNode) → Bool
  | none => true
  | some l => c1ClaimL l

def c1ClaimL : List CNode → Bool
  | [] => true
  | c :: cs => c1ClaimN c && c1ClaimL cs

end

/-- A file whose only child is an `imports` block holding one `import`
line — exactly the shape the exact-AST extractor emits for a module that
starts with an import. -/
def c1CexTree : CNode :=
  .mk { title := "m.py", type := "file", startLine := 1, endLine := 2,
        text := some "import os\nx = 1" }
    (some [.mk { title := "Imports", type := "imports", startLine := 1,
                 endLine := 1, text := some "import os" }
      (some [.mk { title := "import os", type := "import", startLine := 1,
                   endLine := 1, text := some "import os" } (some [])])])

/-!
## The claims
-/
/-- A one-file tree whose single `file` node is a summarizable leaf. -/
def c9Tree : CNode := .mk { title := "f.py", type := "file" } none

/-- A CST with a mapped namespace holding a mapped function inside an
unmapped wrapper. -/
def c2CppRoot : TSNode :=
  .mk "translation_unit" 0 5 none none
    [.mk "namespace_definition" 0 5 (some "ns") none
      [.mk "declaration_list" 0 5 none none
        [.mk "function_definition" 1 4 none (some "f") []]]]

def c6MethodNode : CNode :=
  .mk
    { title := "m()", type := "method", startLine := 2, endLine := 4,
      signature := some "m()", docstring := none, decorators := some [] }
    (some [])

def c6ClassNode : CNode :=
  .mk
    { title := "A", type := "class", startLine := 1, endLine := 4,
      docstring := none, decorators := some [] }
    (some [c6MethodNode])

/-- The title `process_node` renders for a function node (lines 43-47). -/
def cppFunTitle (fd : Option String) : String :=
  match fd with
  | some t => t ++ "()"
  | none => "function"

/-!
## Theorems
-/

@[simp] theorem CNode.fields_mk (f : CFields) (k : Option (List CNode)) :
    (CNode.mk f k).fields = f := rfl

@[simp] theorem CNode.nodes_mk (f : CFields) (k : Option (List CNode)) :
    (CNode.mk f k).nodes = k := rfl

@[simp] theorem CNode.childList_mk (f : CFields) (k : Option (List CNode)) :
    (CNode.mk f k).childList = k.getD [] := rfl

theorem CNode.sizeOf_mem_childList {c n : CNode} (h : c ∈ n.childList) :
    sizeOf c < sizeOf n := by
  rcases n with ⟨f, k⟩
  rcases k with _ | l
  · simp [CNode.childList] at h
  · simp only [CNode.childList_mk, Option.getD_some] at h
    have h1 : sizeOf c < sizeOf l := List.sizeOf_lt_of_mem h
    simp only [CNode.mk.sizeOf_spec, Option.some.sizeOf_spec]
    omega

/-- Strong induction over a canonical node through its children list. -/
theorem CNode.inductionOn {P : CNode → Prop}
    (ih : ∀ n : CNode, (∀ c ∈ n.childList, P c) → P n) : ∀ n, P n := by
  have key : ∀ m : Nat, ∀ n : CNode, sizeOf n ≤ m → P n := by
    intro m
    induction m with
    | zero =>
      intro n hn
      apply ih
      intro c hc
      have := CNode.sizeOf_mem_childList hc
      omega
    | succ m ihm =>
      intro n hn
      apply ih
      intro c hc
      have := CNode.sizeOf_mem_childList hc
      exact ihm c (by omega)
  intro n
  exact key (sizeOf n) n (le_refl _)

@[simp] theorem sortedListB_nil : sortedListB [] = true := rfl

@[simp] theorem sortedListB_cons (c : CNode) (cs : List CNode) :
    sortedListB (c :: cs) = (c.sortedB && sortedListB cs) := rfl

@[simp] theorem sortedOptB_none : sortedOptB none = true := rfl

@[simp] theorem sortedOptB_some (l : List CNode) :
    sortedOptB (some l) = sortedListB l := rfl

@[simp] theorem nestedListB_nil : nestedListB [] = true := rfl

@[simp] theorem nestedListB_cons (c : CNode) (cs : List CNode) :
    nestedListB (c :: cs) = (c.nestedB && nestedListB cs) := rfl

@[simp] theorem nestedOptB_none : nestedOptB none = true := rfl

@[simp] theorem nestedOptB_some (l : List CNode) :
    nestedOptB (some l) = nestedListB l := rfl

@[simp] theorem countTypeList_nil (t : String) : countTypeList t [] = 0 := rfl

@[simp] theorem countTypeList_cons (t : String) (c : CNode) (cs : List CNode) :
    countTypeList t (c :: cs) = c.countType t + countTypeList t cs := rfl

@[simp] theorem countTypeOpt_none (t : String) : countTypeOpt t none = 0 := rfl

@[simp] theorem countTypeOpt_some (t : String) (l : List CNode) :
    countTypeOpt t (some l) = countTypeList t l := rfl

theorem sortedListB_iff_mem (l : List CNode) :
    sortedListB l = true ↔ ∀ c ∈ l, c.sortedB = true := by
  induction l with
  | nil => simp
  | cons c cs ih => simp [ih, Bool.and_eq_true]

theorem nestedListB_iff_mem (l : List CNode) :
    nestedListB l = true ↔ ∀ c ∈ l, c.nestedB = true := by
  induction l with
  | nil => simp
  | cons c cs ih => simp [ih, Bool.and_eq_true]

theorem countTypeList_append (t : String) (l₁ l₂ : List CNode) :
    countTypeList t (l₁ ++ l₂) = countTypeList t l₁ + countTypeList t l₂ := by
  induction l₁ with
  | nil => simp
  | cons c cs ih => simp [ih]; omega

theorem countTypeList_eq_zero (t : String) (l : List CNode)
    (h : ∀ c ∈ l, c.countType t = 0) : countTypeList t l = 0 := by
  induction l with
  | nil => rfl
  | cons c cs ih =>
    simp only [countTypeList_cons]
    rw [h c (by simp), ih fun c hc => h c (by simp [hc])]

theorem PyStmt.sizeOf_mem_stmtSubs {c s : PyStmt} (h : c ∈ s.subs) :
    sizeOf c < sizeOf s := by
  rcases s with _ | ⟨n, l, e, d, dec, b⟩ | ⟨a, n, sg, l, e, d, dec, b⟩ | _ <;>
    simp only [PyStmt.subs] at h
  · simp at h
  · have h1 : sizeOf c < sizeOf b := List.sizeOf_lt_of_mem h
    simp only [PyStmt.classDef.sizeOf_spec]
    omega
  · have h1 : sizeOf c < sizeOf b := List.sizeOf_lt_of_mem h
    simp only [PyStmt.funcDef.sizeOf_spec]
    omega
  · simp at h

/-- Strong induction over a Python statement through its body. -/
theorem PyStmt.stmtInductionOn {P : PyStmt → Prop}
    (ih : ∀ s : PyStmt, (∀ c ∈ s.subs, P c) → P s) : ∀ s, P s := by
  have key : ∀ m : Nat, ∀ s : PyStmt, sizeOf s ≤ m → P s := by
    intro m
    induction m with
    | zero =>
      intro s hs
      apply ih
      intro c hc
      have := PyStmt.sizeOf_mem_stmtSubs hc
      omega
    | succ m ihm =>
      intro s hs
      apply ih
      intro c hc
      have := PyStmt.sizeOf_mem_stmtSubs hc
      exact ihm c (by omega)
  intro s
  exact key (sizeOf s) s (le_refl _)

@[simp] theorem CNode.sortedB_mk (f : CFields) (k : Option (List CNode)) :
    (CNode.mk f k).sortedB =
      ((decide (f.startLine ≤ f.endLine)) && sortedOptB k) := by
  rw [CNode.sortedB]

@[simp] theorem CNode.nestedB_mk (f : CFields) (k : Option (List CNode)) :
    (CNode.mk f k).nestedB =
      (((k.getD []).all fun c =>
          decide (f.startLine ≤ c.fields.startLine) &&
          decide (c.fields.endLine ≤ f.endLine)) && nestedOptB k) := by
  rw [CNode.nestedB]

@[simp] theorem CNode.countType_mk (t : String) (f : CFields)
    (k : Option (List CNode)) :
    (CNode.mk f k).countType t =
      ((if f.type = t then 1 else 0) + countTypeOpt t k) := by
  rw [CNode.countType]

theorem pyWfBody_iff (l e : Nat) (b : List PyStmt) :
    pyWfBody l e b = true ↔
      ∀ s ∈ b, l ≤ s.lineno ∧ s.endLineno ≤ e ∧ s.wfB = true := by
  induction b with
  | nil => simp [pyWfBody]
  | cons s rest ih =>
    rw [pyWfBody]
    simp only [Bool.and_eq_true, decide_eq_true_eq, ih, List.mem_cons]
    constructor
    · rintro ⟨⟨⟨h1, h2⟩, h3⟩, h4⟩ x hx
      rcases hx with rfl | hx
      · exact ⟨h1, h2, h3⟩
      · exact h4 x hx
    · intro h
      refine ⟨⟨⟨(h s (Or.inl rfl)).1, (h s (Or.inl rfl)).2.1⟩,
        (h s (Or.inl rfl)).2.2⟩, fun x hx => h x (Or.inr hx)⟩

theorem pyMono_cons {a : PyStmt} {l : List PyStmt}
    (h : pyMono (a :: l) = true) : pyMono l = true := by
  cases l with
  | nil => rfl
  | cons b rest =>
    rw [pyMono] at h
    simp only [Bool.and_eq_true] at h
    exact h.2

theorem pyMono_head_le {a : PyStmt} {l : List PyStmt}
    (h : pyMono (a :: l) = true) :
    ∀ x ∈ l, a.lineno ≤ x.lineno ∧ a.endLineno ≤ x.endLineno := by
  induction l generalizing a with
  | nil => simp
  | cons b rest ih =>
    rw [pyMono] at h
    simp only [Bool.and_eq_true, decide_eq_true_eq] at h
    intro x hx
    rcases List.mem_cons.mp hx with rfl | hx
    · exact ⟨h.1.1, h.1.2⟩
    · have := ih h.2 x hx
      exact ⟨le_trans h.1.1 this.1, le_trans h.1.2 this.2⟩

theorem pyMono_le_getLast {l : List PyStmt} (h : pyMono l = true)
    {g : PyStmt} (hg : l.getLast? = some g) :
    ∀ x ∈ l, x.endLineno ≤ g.endLineno := by
  induction l with
  | nil => simp at hg
  | cons a rest ih =>
    intro x hx
    cases rest with
    | nil =>
      simp only [List.getLast?_singleton, Option.some.injEq] at hg
      rcases List.mem_singleton.mp hx with rfl
      subst hg; exact le_refl _
    | cons b tail =>
      have hg2 : (b :: tail).getLast? = some g := by
        simpa [List.getLast?_cons_cons] using hg
      have hgmem : g ∈ b :: tail := List.mem_of_mem_getLast? (by simp [hg2])
      rcases List.mem_cons.mp hx with rfl | hx
      · exact (pyMono_head_le h g hgmem).2
      · exact ih (pyMono_cons h) hg2 x hx

theorem pyMono_getLast_mem {l : List PyStmt} {g : PyStmt}
    (hg : l.getLast? = some g) : g ∈ l :=
  List.mem_of_mem_getLast? (by simp [hg])

theorem pyProcessBody_mem {c : CNode} {b : List PyStmt} {pt : String} :
    c ∈ pyProcessBody b pt ↔
      ∃ s ∈ b, pyProcessNode s (some pt) = some c := by
  induction b with
  | nil => simp [pyProcessBody]
  | cons s rest ih =>
    rw [pyProcessBody]
    cases hs : pyProcessNode s (some pt) with
    | none =>
      simp only [List.nil_append, ih, List.mem_cons]
      constructor
      · rintro ⟨x, hx, h⟩; exact ⟨x, Or.inr hx, h⟩
      · rintro ⟨x, rfl | hx, h⟩
        · rw [hs] at h; cases h
        · exact ⟨x, hx, h⟩
    | some n =>
      simp only [List.cons_append, List.nil_append, List.mem_cons, ih]
      constructor
      · rintro (rfl | ⟨x, hx, h⟩)
        · exact ⟨s, Or.inl rfl, hs⟩
        · exact ⟨x, Or.inr hx, h⟩
      · rintro ⟨x, rfl | hx, h⟩
        · rw [hs] at h; exact Or.inl (Option.some.inj h).symm
        · exact Or.inr ⟨x, hx, h⟩

/-- Basic shape of a node produced by `process_node`: its range is the
provider's range for that statement, and its children sit in the `nodes`
list. -/
theorem pyProcessNode_range {s : PyStmt} {pt : Option String} {n : CNode}
    (h : pyProcessNode s pt = some n) :
    n.fields.startLine = s.lineno ∧ n.fields.endLine = s.endLineno := by
  cases s with
  | imp u l e => rw [pyProcessNode] at h; cases h
  | other l e => rw [pyProcessNode] at h; cases h
  | classDef name l e doc dec body =>
    rw [pyProcessNode] at h
    cases h
    exact ⟨rfl, rfl⟩
  | funcDef a name sig l e doc dec body =>
    rw [pyProcessNode] at h
    cases h
    exact ⟨rfl, rfl⟩

/-- A node produced by `process_node` on a well-formed statement is sorted
and nested: ranges are copied verbatim from the AST, so the provider's
containment carries over. -/
theorem pyProcessNode_sorted_nested :
    ∀ s : PyStmt, s.wfB = true →
      ∀ pt n, pyProcessNode s pt = some n →
        n.sortedB = true ∧ n.nestedB = true := by
  apply PyStmt.stmtInductionOn
    (P := fun s => s.wfB = true →
      ∀ pt n, pyProcessNode s pt = some n →
        n.sortedB = true ∧ n.nestedB = true)
  intro s ih hwf pt n h
  cases s with
  | imp u l e => rw [pyProcessNode] at h; cases h
  | other l e => rw [pyProcessNode] at h; cases h
  | classDef name l e doc dec body =>
    rw [PyStmt.wfB] at hwf
    simp only [Bool.and_eq_true, decide_eq_true_eq] at hwf
    rw [pyProcessNode] at h
    cases h
    have hkids : ∀ c ∈ pyProcessBody body "class",
        c.sortedB = true ∧ c.nestedB = true ∧
          l ≤ c.fields.startLine ∧ c.fields.endLine ≤ e := by
      intro c hc
      rcases pyProcessBody_mem.mp hc with ⟨x, hx, hxc⟩
      have hxw := (pyWfBody_iff l e body).mp hwf.2 x hx
      have hr := pyProcessNode_range hxc
      refine ⟨(ih x (by exact hx) hxw.2.2 _ _ hxc).1,
        (ih x (by exact hx) hxw.2.2 _ _ hxc).2, ?_, ?_⟩
      · rw [hr.1]; exact hxw.1
      · rw [hr.2]; exact hxw.2.1
    constructor
    · simp only [CNode.sortedB_mk, sortedOptB_some, Bool.and_eq_true,
        decide_eq_true_eq]
      exact ⟨hwf.1, (sortedListB_iff_mem _).mpr fun c hc => (hkids c hc).1⟩
    · simp only [CNode.nestedB_mk, nestedOptB_some, Bool.and_eq_true,
        Option.getD_some, List.all_eq_true, decide_eq_true_eq]
      refine ⟨fun c hc => ?_, (nestedListB_iff_mem _).mpr
        fun c hc => (hkids c hc).2.1⟩
      exact ⟨(hkids c hc).2.2.1, (hkids c hc).2.2.2⟩
  | funcDef a name sig l e doc dec body =>
    rw [PyStmt.wfB] at hwf
    simp only [Bool.and_eq_true, decide_eq_true_eq] at hwf
    rw [pyProcessNode] at h
    cases h
    have hkids : ∀ c ∈ pyProcessBody body "function",
        c.sortedB = true ∧ c.nestedB = true ∧
          l ≤ c.fields.startLine ∧ c.fields.endLine ≤ e := by
      intro c hc
      rcases pyProcessBody_mem.mp hc with ⟨x, hx, hxc⟩
      have hxw := (pyWfBody_iff l e body).mp hwf.2 x hx
      have hr := pyProcessNode_range hxc
      refine ⟨(ih x (by exact hx) hxw.2.2 _ _ hxc).1,
        (ih x (by exact hx) hxw.2.2 _ _ hxc).2, ?_, ?_⟩
      · rw [hr.1]; exact hxw.1
      · rw [hr.2]; exact hxw.2.1
    constructor
    · simp only [CNode.sortedB_mk, sortedOptB_some, Bool.and_eq_true,
        decide_eq_true_eq]
      exact ⟨hwf.1, (sortedListB_iff_mem _).mpr fun c hc => (hkids c hc).1⟩
    · simp only [CNode.nestedB_mk, nestedOptB_some, Bool.and_eq_true,
        Option.getD_some, List.all_eq_true, decide_eq_true_eq]
      refine ⟨fun c hc => ?_, (nestedListB_iff_mem _).mpr
        fun c hc => (hkids c hc).2.1⟩
      exact ⟨(hkids c hc).2.2.1, (hkids c hc).2.2.2⟩

/-- `process_node` never produces an `imports` node at any depth (those are
created only by the top-level batching loop). -/
theorem pyProcessNode_countType_imports :
    ∀ s : PyStmt, ∀ pt n, pyProcessNode s pt = some n →
      n.countType "imports" = 0 := by
  apply PyStmt.stmtInductionOn
    (P := fun s => ∀ pt n, pyProcessNode s pt = some n →
      n.countType "imports" = 0)
  intro s ih pt n h
  cases s with
  | imp u l e => rw [pyProcessNode] at h; cases h
  | other l e => rw [pyProcessNode] at h; cases h
  | classDef name l e doc dec body =>
    rw [pyProcessNode] at h
    cases h
    simp only [CNode.countType_mk, countTypeOpt_some]
    rw [if_neg (by decide), countTypeList_eq_zero]
    intro c hc
    rcases pyProcessBody_mem.mp hc with ⟨x, hx, hxc⟩
    exact ih x (by exact hx) _ _ hxc
  | funcDef a name sig l e doc dec body =>
    rw [pyProcessNode] at h
    cases h
    simp only [CNode.countType_mk, countTypeOpt_some]
    have hz : countTypeList "imports" (pyProcessBody body "function") = 0 := by
      apply countTypeList_eq_zero
      intro c hc
      rcases pyProcessBody_mem.mp hc with ⟨x, hx, hxc⟩
      exact ih x (by exact hx) _ _ hxc
    rw [hz]
    rcases Decidable.em (pt = some "class") with hp | hp
    · rw [if_pos hp, if_neg (by decide)]
    · rw [if_neg hp, if_neg (by decide)]

theorem pyMono_append_right {l₁ l₂ : List PyStmt}
    (h : pyMono (l₁ ++ l₂) = true) : pyMono l₂ = true := by
  induction l₁ with
  | nil => exact h
  | cons a rest ih => exact ih (pyMono_cons h)

theorem pyMono_append_left {l₁ l₂ : List PyStmt}
    (h : pyMono (l₁ ++ l₂) = true) : pyMono l₁ = true := by
  induction l₁ with
  | nil => rfl
  | cons a rest ih =>
    cases rest with
    | nil => rfl
    | cons b tail =>
      have h2 : pyMono ((b :: tail) ++ l₂) = true := pyMono_cons h
      rw [List.cons_append, List.cons_append, pyMono] at h
      simp only [Bool.and_eq_true] at h
      rw [pyMono]
      simp only [Bool.and_eq_true]
      exact ⟨h.1, ih h2⟩

theorem pyImportChild_sorted {s : PyStmt} (h : s.wfB = true) :
    (pyImportChild s).sortedB = true := by
  cases s <;>
    simp only [PyStmt.wfB, Bool.and_eq_true, decide_eq_true_eq] at h <;>
    simp [pyImportChild, PyStmt.lineno, PyStmt.endLineno] <;>
    first
      | exact h
      | exact h.1

/-- The batched `imports` node of a nonempty, well-formed,
source-ordered import run is sorted, nested, and contributes exactly one
node of type `imports`. -/
theorem pyImportsNode_ok {cur : List PyStmt} (hne : cur ≠ [])
    (hwf : ∀ s ∈ cur, PyStmt.wfB s = true) (hm : pyMono cur = true) :
    (pyImportsNode cur).sortedB = true ∧ (pyImportsNode cur).nestedB = true ∧
      (pyImportsNode cur).countType "imports" = 1 := by
  rcases cur with _ | ⟨a, rest⟩
  · exact absurd rfl hne
  rcases hg : (a :: rest).getLast? with _ | g
  · simp [List.getLast?_eq_none_iff] at hg
  have hgmem : g ∈ a :: rest := pyMono_getLast_mem hg
  have hstart : ((a :: rest).head?.map PyStmt.lineno).getD 0 = a.lineno := by
    simp
  have hend :
      (((a :: rest).getLast?.map PyStmt.endLineno).getD 0) = g.endLineno := by
    rw [hg]; simp
  have hchild : ∀ s ∈ a :: rest,
      a.lineno ≤ s.lineno ∧ s.endLineno ≤ g.endLineno := by
    intro s hs
    constructor
    · rcases List.mem_cons.mp hs with rfl | hs
      · exact le_refl _
      · exact (pyMono_head_le hm s hs).1
    · exact pyMono_le_getLast hm hg s hs
  refine ⟨?_, ?_, ?_⟩
  · rw [pyImportsNode]
    simp only [CNode.sortedB_mk, sortedOptB_some, Bool.and_eq_true,
      decide_eq_true_eq, hstart, hend]
    constructor
    · calc a.lineno ≤ a.endLineno := by
            have := hwf a (by simp)
            cases a <;> simp only [PyStmt.wfB, Bool.and_eq_true,
              decide_eq_true_eq] at this <;>
              first
                | exact this
                | exact this.1
        _ ≤ g.endLineno := pyMono_le_getLast hm hg a (by simp)
    · rw [sortedListB_iff_mem]
      intro c hc
      rcases List.mem_map.mp hc with ⟨s, hs, rfl⟩
      exact pyImportChild_sorted (hwf s hs)
  · rw [pyImportsNode]
    simp only [CNode.nestedB_mk, nestedOptB_some, Bool.and_eq_true,
      Option.getD_some, List.all_eq_true, hstart, hend]
    constructor
    · intro c hc
      rcases List.mem_map.mp hc with ⟨s, hs, rfl⟩
      simp only [pyImportChild, CNode.fields_mk, Bool.and_eq_true,
        decide_eq_true_eq, hstart, hend]
      exact hchild s hs
    · rw [nestedListB_iff_mem]
      intro c hc
      rcases List.mem_map.mp hc with ⟨s, hs, rfl⟩
      simp [pyImportChild]
  · rw [pyImportsNode]
    simp only [CNode.countType_mk, countTypeOpt_some]
    have hz : countTypeList "imports" ((a :: rest).map pyImportChild) = 0 := by
      apply countTypeList_eq_zero
      intro c hc
      rcases List.mem_map.mp hc with ⟨s, hs, rfl⟩
      simp [pyImportChild]
    rw [hz]
    simp

/-- Every root the exact-AST extractor produces from well-formed,
source-ordered provider input is sorted and nested. -/
theorem pyTopLoop_sorted_nested :
    ∀ (remaining cur : List PyStmt),
      (∀ s ∈ cur ++ remaining, PyStmt.wfB s = true) →
      pyMono (cur ++ remaining) = true →
      ∀ c ∈ pyTopLoop remaining cur, c.sortedB = true ∧ c.nestedB = true := by
  intro remaining
  induction remaining with
  | nil =>
    intro cur hwf hm c hc
    rw [pyTopLoop] at hc
    rcases cur with _ | ⟨a, rest⟩
    · simp [pyFlush] at hc
    · rw [pyFlush] at hc
      simp only [List.mem_singleton] at hc
      subst hc
      have h1 := @pyImportsNode_ok (a :: rest) (by simp)
        (fun s hs => hwf s (by simpa using hs)) (by simpa using hm)
      exact ⟨h1.1, h1.2.1⟩
  | cons s rest ih =>
    intro cur hwf hm c hc
    rw [pyTopLoop] at hc
    by_cases hs : s.isImport = true
    · rw [if_pos hs] at hc
      refine ih (cur ++ [s]) ?_ ?_ c hc
      · intro x hx; apply hwf; simpa using hx
      · simpa using hm
    · rw [if_neg hs] at hc
      simp only [List.mem_append] at hc
      rcases hc with (hc | hc) | hc
      · rcases cur with _ | ⟨a, tail⟩
        · simp [pyFlush] at hc
        · rw [pyFlush] at hc
          simp only [List.mem_singleton] at hc
          subst hc
          have h1 := @pyImportsNode_ok (a :: tail) (by simp)
            (fun x hx => hwf x (by
              rcases List.mem_cons.mp hx with rfl | hx2
              · simp
              · simp [hx2]))
            (pyMono_append_left hm)
          exact ⟨h1.1, h1.2.1⟩
      · rcases hn : pyProcessNode s none with _ | n
        · rw [hn] at hc; simp at hc
        · rw [hn] at hc
          simp only [List.mem_singleton] at hc
          subst hc
          exact pyProcessNode_sorted_nested s (hwf s (by simp)) none c hn
      · refine ih [] ?_ ?_ c hc
        · intro x hx; apply hwf; simp at hx; simp [hx]
        · have := @pyMono_append_right cur _ hm
          exact pyMono_cons this

/-- `extract_nodes_from_python`: sortedness and nestedness of the whole
forest, given the provider's position contract. -/
theorem extract_nodes_from_python_sorted_nested (body : List PyStmt)
    (hwf : ∀ s ∈ body, PyStmt.wfB s = true) (hm : pyMono body = true) :
    ∀ c ∈ extract_nodes_from_python body,
      c.sortedB = true ∧ c.nestedB = true := by
  rw [extract_nodes_from_python]
  exact pyTopLoop_sorted_nested body [] (by simpa using hwf) (by simpa using hm)

theorem jBodyWf_iff (p : Nat) (body : List JMember) :
    jBodyWf p body = true ↔ ∀ m ∈ body, JMember.wfFrom p m = true := by
  induction body with
  | nil => simp [jBodyWf]
  | cons m rest ih =>
    rw [jBodyWf]
    simp only [Bool.and_eq_true, ih, List.mem_cons]
    constructor
    · rintro ⟨h1, h2⟩ x (rfl | hx)
      · exact h1
      · exact h2 x hx
    · intro h
      exact ⟨h m (Or.inl rfl), fun x hx => h x (Or.inr hx)⟩

theorem jProcessBody_mem {c : CNode} {body : List JMember} {pt : String} :
    c ∈ jProcessBody body pt ↔
      ∃ m ∈ body, processJavaMember m (some pt) = some c := by
  induction body with
  | nil => simp [jProcessBody]
  | cons m rest ih =>
    rw [jProcessBody]
    cases hm : processJavaMember m (some pt) with
    | none =>
      simp only [List.nil_append, ih, List.mem_cons]
      constructor
      · rintro ⟨x, hx, h⟩; exact ⟨x, Or.inr hx, h⟩
      · rintro ⟨x, rfl | hx, h⟩
        · rw [hm] at h; cases h
        · exact ⟨x, hx, h⟩
    | some n =>
      simp only [List.cons_append, List.nil_append, List.mem_cons, ih]
      constructor
      · rintro (rfl | ⟨x, hx, h⟩)
        · exact ⟨m, Or.inl rfl, hm⟩
        · exact ⟨x, Or.inr hx, h⟩
      · rintro ⟨x, rfl | hx, h⟩
        · rw [hm] at h; exact Or.inl (Option.some.inj h).symm
        · exact Or.inr ⟨x, hx, h⟩

theorem jMaxChildEnd_ge_start (start : Nat) (kids : List CNode) :
    start ≤ jMaxChildEnd start kids := by
  rw [jMaxChildEnd]
  induction kids generalizing start with
  | nil => simp
  | cons c rest ih =>
    simp only [List.foldl_cons]
    refine le_trans ?_ (ih _)
    split <;> omega

theorem jMaxChildEnd_ge_mem (start : Nat) (kids : List CNode) :
    ∀ c ∈ kids, c.fields.endLine ≤ jMaxChildEnd start kids := by
  rw [jMaxChildEnd]
  induction kids generalizing start with
  | nil => simp
  | cons d rest ih =>
    intro c hc
    simp only [List.foldl_cons]
    rcases List.mem_cons.mp hc with rfl | hc
    · refine le_trans ?_ (le_trans (jMaxChildEnd_ge_start _ rest) (le_refl _))
      split <;> omega
    · exact ih _ c hc

theorem jMaxChildEnd_eq_start_or_mem (start : Nat) (kids : List CNode) :
    jMaxChildEnd start kids = start ∨
      jMaxChildEnd start kids ∈ kids.map fun c => c.fields.endLine := by
  rw [jMaxChildEnd]
  induction kids generalizing start with
  | nil => simp
  | cons d rest ih =>
    by_cases hd : d.fields.endLine > start
    · simp only [List.foldl_cons, if_pos hd, List.map_cons, List.mem_cons]
      rcases ih d.fields.endLine with h | h
      · right; left; exact h
      · right; right; exact h
    · simp only [List.foldl_cons, if_neg hd, List.map_cons, List.mem_cons]
      rcases ih start with h | h
      · left; exact h
      · right; right; exact h

theorem JMember.sizeOf_mem_memberSubs {c m : JMember} (h : c ∈ m.subs) :
    sizeOf c < sizeOf m := by
  rcases m with ⟨k, n, p, d, a, b⟩ | _ | _ <;> simp only [JMember.subs] at h
  · have h1 : sizeOf c < sizeOf b := List.sizeOf_lt_of_mem h
    simp only [JMember.classDecl.sizeOf_spec]
    omega
  · simp at h
  · simp at h

/-- Strong induction over a `javalang` member through its body. -/
theorem JMember.memberInductionOn {P : JMember → Prop}
    (ih : ∀ m : JMember, (∀ c ∈ m.subs, P c) → P m) : ∀ m, P m := by
  have key : ∀ k : Nat, ∀ m : JMember, sizeOf m ≤ k → P m := by
    intro k
    induction k with
    | zero =>
      intro m hm
      apply ih
      intro c hc
      have := JMember.sizeOf_mem_memberSubs hc
      omega
    | succ k ihk =>
      intro m hm
      apply ih
      intro c hc
      have := JMember.sizeOf_mem_memberSubs hc
      exact ihk c (by omega)
  intro m
  exact key (sizeOf m) m (le_refl _)

/-- Nodes the coarse-AST extractor produces from position-complete,
monotone provider input satisfy `start_line ≤ end_line` throughout, and
start no earlier than the bound the provider promises. -/
theorem processJavaMember_sorted :
    ∀ m : JMember, ∀ lo : Nat, JMember.wfFrom lo m = true →
      ∀ pt n, processJavaMember m pt = some n →
        lo ≤ n.fields.startLine ∧ n.sortedB = true := by
  apply JMember.memberInductionOn
    (P := fun m => ∀ lo : Nat, JMember.wfFrom lo m = true →
      ∀ pt n, processJavaMember m pt = some n →
        lo ≤ n.fields.startLine ∧ n.sortedB = true)
  intro m ih lo hwf pt n h
  cases m with
  | classDecl kind name pos doc ann body =>
    cases pos with
    | none => simp [JMember.wfFrom.eq_def] at hwf
    | some p =>
      simp only [JMember.wfFrom.eq_def, Bool.and_eq_true,
        decide_eq_true_eq] at hwf
      rw [processJavaMember] at h
      cases h
      simp only [CNode.fields_mk, jLineRange, Option.getD_some]
      refine ⟨hwf.1, ?_⟩
      simp only [CNode.sortedB_mk, sortedOptB_some, Bool.and_eq_true,
        decide_eq_true_eq, jLineRange, Option.getD_some]
      constructor
      · exact Nat.le_max_left _ _
      · rw [sortedListB_iff_mem]
        intro c hc
        rcases jProcessBody_mem.mp hc with ⟨x, hx, hxc⟩
        have hxw := (jBodyWf_iff p body).mp hwf.2 x hx
        exact (ih x (by exact hx) p hxw _ _ hxc).2
  | methodDecl isCtor name params returnType pos doc ann body =>
    cases pos with
    | none => simp [JMember.wfFrom.eq_def] at hwf
    | some p =>
      simp only [JMember.wfFrom.eq_def, Bool.and_eq_true,
        decide_eq_true_eq, List.all_eq_true] at hwf
      rw [processJavaMember] at h
      cases h
      simp only [CNode.fields_mk, jLineRange, Option.getD_some]
      refine ⟨hwf.1, ?_⟩
      simp only [CNode.sortedB_mk, sortedOptB_some, sortedListB_nil,
        Bool.and_eq_true, decide_eq_true_eq, jLineRange, Option.getD_some]
      refine ⟨?_, trivial⟩
      cases hl : body.getLast? with
      | none => simp [jMethodEnd, hl]
      | some st =>
        cases hq : st.position with
        | none => simp [jMethodEnd, hl, hq]
        | some q =>
          have hmem : st ∈ body := List.mem_of_mem_getLast? (by simp [hl])
          have h2 := hwf.2 st hmem
          rw [hq] at h2
          simp only [decide_eq_true_eq] at h2
          simp only [jMethodEnd, hl, hq]
          omega
  | otherMember => rw [processJavaMember] at h; cases h

theorem natMono_head_le_getLast {a : Nat} {l : List Nat}
    (h : natMono (a :: l) = true) {g : Nat}
    (hg : (a :: l).getLast? = some g) : a ≤ g := by
  induction l generalizing a with
  | nil =>
    simp only [List.getLast?_singleton, Option.some.injEq] at hg
    omega
  | cons b rest ih =>
    rw [natMono] at h
    simp only [Bool.and_eq_true, decide_eq_true_eq] at h
    have hg2 : (b :: rest).getLast? = some g := by
      simpa [List.getLast?_cons_cons] using hg
    exact le_trans h.1 (ih h.2 hg2)

/-- The whole coarse-AST forest is sorted, given positions present and
nondecreasing (provider contract). -/
theorem extract_nodes_from_java_sorted (imports : List (Option Nat))
    (types : List JMember)
    (him : natMono (imports.map jLineRange) = true)
    (hwf : ∀ t ∈ types, JMember.wfFrom 0 t = true) :
    ∀ c ∈ extract_nodes_from_java imports types, c.sortedB = true := by
  intro c hc
  unfold extract_nodes_from_java at hc
  rcases List.mem_append.mp hc with hc | hc
  · rcases imports with _ | ⟨first, restImp⟩
    · simp at hc
    · simp only [List.mem_singleton] at hc
      subst hc
      simp only [CNode.sortedB_mk, sortedOptB_some, sortedListB_nil,
        Bool.and_eq_true, decide_eq_true_eq]
      refine ⟨?_, trivial⟩
      have hg : ((first :: restImp).map jLineRange).getLast? =
          some (jLineRange ((first :: restImp).getLast?.getD first)) := by
        rcases hgl : (first :: restImp).getLast? with _ | g
        · simp [List.getLast?_eq_none_iff] at hgl
        · rw [List.getLast?_map, hgl]
          rfl
      exact natMono_head_le_getLast (a := jLineRange first)
        (l := restImp.map jLineRange) (by simpa using him)
        (by simpa using hg)
  · rcases List.mem_filterMap.mp hc with ⟨t, ht, htc⟩
    exact (processJavaMember_sorted t 0 (hwf t ht) none c htc).2

/-- Class-like end-line estimate: with well-formed provider positions the
computed `end_line` is exactly the maximum child end-line (attained), or
`start_line` when there are no processed children. -/
theorem processJavaMember_class_end (kind : JTypeKind) (name : String)
    (p : Nat) (doc : Option String) (ann : List String)
    (body : List JMember)
    (hwf : JMember.wfFrom 0 (.classDecl kind name (some p) doc ann body)
      = true)
    (pt : Option String) {n : CNode}
    (h : processJavaMember (.classDecl kind name (some p) doc ann body) pt
      = some n) :
    (n.childList = [] → n.fields.endLine = n.fields.startLine) ∧
      (n.childList ≠ [] →
        (∀ c ∈ n.childList, c.fields.endLine ≤ n.fields.endLine) ∧
          n.fields.endLine ∈ n.childList.map fun c => c.fields.endLine) := by
  simp only [JMember.wfFrom.eq_def, Bool.and_eq_true,
    decide_eq_true_eq] at hwf
  rw [processJavaMember] at h
  cases h
  simp only [CNode.childList_mk, CNode.fields_mk, Option.getD_some,
    jLineRange]
  have hmax : max p (jMaxChildEnd p (jProcessBody body kind.toType)) =
      jMaxChildEnd p (jProcessBody body kind.toType) :=
    Nat.max_eq_right (jMaxChildEnd_ge_start _ _)
  constructor
  · intro hk
    rw [hk]
    rw [hk] at hmax
    rw [hmax, jMaxChildEnd]
    simp
  · intro hk
    have hbounds : ∀ c ∈ jProcessBody body kind.toType,
        p ≤ c.fields.endLine := by
      intro c hc
      rcases jProcessBody_mem.mp hc with ⟨x, hx, hxc⟩
      have hxw := (jBodyWf_iff p body).mp hwf.2 x hx
      have h1 := processJavaMember_sorted x p hxw _ _ hxc
      have h2 : c.fields.startLine ≤ c.fields.endLine := by
        rcases c with ⟨f, k⟩
        simp only [CNode.sortedB_mk, Bool.and_eq_true,
          decide_eq_true_eq] at h1
        exact h1.2.1
      exact le_trans h1.1 h2
    constructor
    · intro c hc
      rw [hmax]
      exact jMaxChildEnd_ge_mem p _ c hc
    · rw [hmax]
      rcases jMaxChildEnd_eq_start_or_mem p (jProcessBody body kind.toType)
        with he | he
      · rcases hk2 : jProcessBody body kind.toType with _ | ⟨c0, rest⟩
        · exact absurd hk2 hk
        · have hc0 : c0 ∈ jProcessBody body kind.toType := by
            rw [hk2]; simp
          have hup := jMaxChildEnd_ge_mem p _ c0 hc0
          have hlo := hbounds c0 hc0
          rw [he] at hup
          have hceq : c0.fields.endLine = p := le_antisymm hup hlo
          have he2 : jMaxChildEnd p (c0 :: rest) = p := by
            rw [← hk2]; exact he
          rw [he2]
          simp only [List.map_cons, List.mem_cons]
          exact Or.inl hceq.symm
      · exact he

/-- Method/constructor end-line estimate: exactly the last body statement's
line plus one, or `start_line` when the body is empty or the last statement
has no position.  This holds for any provider input. -/
theorem processJavaMember_method_end (isCtor : Bool) (name : String)
    (params : List (String × String)) (returnType : Option String)
    (pos : Option Nat) (doc : Option String) (ann : List String)
    (body : List JStmt) (pt : Option String) {n : CNode}
    (h : processJavaMember
      (.methodDecl isCtor name params returnType pos doc ann body) pt
      = some n) :
    n.fields.startLine = jLineRange pos ∧
      (body = [] → n.fields.endLine = n.fields.startLine) ∧
      (∀ st, body.getLast? = some st →
        (st.position = none → n.fields.endLine = n.fields.startLine) ∧
        (∀ q, st.position = some q → n.fields.endLine = q + 1)) := by
  rw [processJavaMember] at h
  cases h
  simp only [CNode.fields_mk]
  refine ⟨trivial, ?_, ?_⟩
  · intro hb
    subst hb
    simp [jMethodEnd]
  · intro st hst
    constructor
    · intro hq
      simp [jMethodEnd, hst, hq]
    · intro q hq
      simp [jMethodEnd, hst, hq]

@[simp] theorem TSNode.kind_mk (k : String) (s e : Nat)
    (n d : Option String) (c : List TSNode) :
    (TSNode.mk k s e n d c).kind = k := rfl

@[simp] theorem TSNode.children_mk (k : String) (s e : Nat)
    (n d : Option String) (c : List TSNode) :
    (TSNode.mk k s e n d c).children = c := rfl

theorem tsChildrenWfB_iff (s e : Nat) (l : List TSNode) :
    tsChildrenWfB s e l = true ↔
      ∀ c ∈ l, s ≤ c.startRow ∧ c.endRow ≤ e ∧ c.wfB = true := by
  induction l with
  | nil => simp [tsChildrenWfB]
  | cons c rest ih =>
    rw [tsChildrenWfB]
    simp only [Bool.and_eq_true, decide_eq_true_eq, ih, List.mem_cons]
    constructor
    · rintro ⟨⟨⟨h1, h2⟩, h3⟩, h4⟩ x (rfl | hx)
      · exact ⟨h1, h2, h3⟩
      · exact h4 x hx
    · intro h
      exact ⟨⟨⟨(h c (Or.inl rfl)).1, (h c (Or.inl rfl)).2.1⟩,
        (h c (Or.inl rfl)).2.2⟩, fun x hx => h x (Or.inr hx)⟩

theorem TSNode.sizeOf_mem_children {c t : TSNode} (h : c ∈ t.children) :
    sizeOf c < sizeOf t := by
  rcases t with ⟨k, s, e, n, d, ch⟩
  simp only [TSNode.children_mk] at h
  have h1 : sizeOf c < sizeOf ch := List.sizeOf_lt_of_mem h
  simp only [TSNode.mk.sizeOf_spec]
  omega

/-- Strong induction over a CST node through its children. -/
theorem TSNode.tsInductionOn {P : TSNode → Prop}
    (ih : ∀ t : TSNode, (∀ c ∈ t.children, P c) → P t) : ∀ t, P t := by
  have key : ∀ m : Nat, ∀ t : TSNode, sizeOf t ≤ m → P t := by
    intro m
    induction m with
    | zero =>
      intro t ht
      apply ih
      intro c hc
      have := TSNode.sizeOf_mem_children hc
      omega
    | succ m ihm =>
      intro t ht
      apply ih
      intro c hc
      have := TSNode.sizeOf_mem_children hc
      exact ihm c (by omega)
  intro t
  exact key (sizeOf t) t (le_refl _)

theorem processCppChildren_mem {n : CNode} {l : List TSNode}
    {pt : Option String} :
    n ∈ processCppChildren l pt ↔
      ∃ c ∈ l, n ∈ processCppNode c pt := by
  induction l with
  | nil => simp [processCppChildren]
  | cons c rest ih =>
    rw [processCppChildren]
    simp only [List.mem_append, ih, List.mem_cons]
    constructor
    · rintro (h | ⟨x, hx, h⟩)
      · exact ⟨c, Or.inl rfl, h⟩
      · exact ⟨x, Or.inr hx, h⟩
    · rintro ⟨x, rfl | hx, h⟩
      · exact Or.inl h
      · exact Or.inr ⟨x, hx, h⟩

theorem processCppChildren_append (l₁ l₂ : List TSNode)
    (pt : Option String) :
    processCppChildren (l₁ ++ l₂) pt =
      processCppChildren l₁ pt ++ processCppChildren l₂ pt := by
  induction l₁ with
  | nil => simp [processCppChildren]
  | cons c rest ih =>
    rw [List.cons_append, processCppChildren, processCppChildren, ih,
      List.append_assoc]

/-- Every node the spanned-CST extractor produces from a well-formed CST
is sorted and nested, and its range lies within the CST node's span:
ranges are copied from exact spans, and flattening splices descendants
whose spans nest transitively. -/
theorem processCppNode_sorted_nested :
    ∀ t : TSNode, t.wfB = true → ∀ pt n, n ∈ processCppNode t pt →
      (t.startRow + 1 ≤ n.fields.startLine ∧
        n.fields.endLine ≤ t.endRow + 1) ∧
      n.sortedB = true ∧ n.nestedB = true := by
  apply TSNode.tsInductionOn
    (P := fun t => t.wfB = true → ∀ pt n, n ∈ processCppNode t pt →
      (t.startRow + 1 ≤ n.fields.startLine ∧
        n.fields.endLine ≤ t.endRow + 1) ∧
      n.sortedB = true ∧ n.nestedB = true)
  intro t ih hwf pt n hn
  rcases t with ⟨kind, s, e, nm, dc, ch⟩
  rw [TSNode.wfB] at hwf
  simp only [Bool.and_eq_true, decide_eq_true_eq] at hwf
  have hkids : ∀ (pt2 : Option String) (m : CNode),
      m ∈ processCppChildren ch pt2 →
        (s + 1 ≤ m.fields.startLine ∧ m.fields.endLine ≤ e + 1) ∧
        m.sortedB = true ∧ m.nestedB = true := by
    intro pt2 m hm
    rcases processCppChildren_mem.mp hm with ⟨c, hc, hmc⟩
    have hcw := (tsChildrenWfB_iff s e ch).mp hwf.2 c hc
    have h1 := ih c (by simpa using hc) hcw.2.2 pt2 m hmc
    refine ⟨⟨?_, ?_⟩, h1.2⟩
    · exact le_trans (by omega) h1.1.1
    · exact le_trans h1.1.2 (by omega)
  simp only [processCppNode.eq_def] at hn
  split at hn
  · simp only [List.mem_singleton] at hn
    subst hn
    simp only [TSNode.startRow, TSNode.endRow, CNode.fields_mk,
      CNode.sortedB_mk, CNode.nestedB_mk, sortedOptB_some, nestedOptB_some,
      Option.getD_some, List.all_eq_true, Bool.and_eq_true,
      decide_eq_true_eq]
    refine ⟨⟨le_refl _, le_refl _⟩, ⟨by omega, ?_⟩, ?_, ?_⟩
    · rw [sortedListB_iff_mem]
      intro m hm
      exact (hkids _ m hm).2.1
    · intro m hm
      exact ⟨(hkids _ m hm).1.1, (hkids _ m hm).1.2⟩
    · rw [nestedListB_iff_mem]
      intro m hm
      exact (hkids _ m hm).2.2
  · split at hn
    · simp only [List.mem_singleton] at hn
      subst hn
      simp only [TSNode.startRow, TSNode.endRow, CNode.fields_mk,
        CNode.sortedB_mk, CNode.nestedB_mk, sortedOptB_some, nestedOptB_some,
        Option.getD_some, List.all_eq_true, Bool.and_eq_true,
        decide_eq_true_eq]
      refine ⟨⟨le_refl _, le_refl _⟩, ⟨by omega, ?_⟩, ?_, ?_⟩
      · rw [sortedListB_iff_mem]
        intro m hm
        exact (hkids _ m hm).2.1
      · intro m hm
        exact ⟨(hkids _ m hm).1.1, (hkids _ m hm).1.2⟩
      · rw [nestedListB_iff_mem]
        intro m hm
        exact (hkids _ m hm).2.2
    · split at hn
      · simp only [List.mem_singleton] at hn
        subst hn
        simp only [TSNode.startRow, TSNode.endRow, CNode.fields_mk,
          CNode.sortedB_mk, CNode.nestedB_mk, sortedOptB_some,
          nestedOptB_some, Option.getD_some, List.all_eq_true,
          Bool.and_eq_true, decide_eq_true_eq]
        refine ⟨⟨le_refl _, le_refl _⟩, ⟨by omega, ?_⟩, ?_, ?_⟩
        · rw [sortedListB_iff_mem]
          intro m hm
          exact (hkids _ m hm).2.1
        · intro m hm
          exact ⟨(hkids _ m hm).1.1, (hkids _ m hm).1.2⟩
        · rw [nestedListB_iff_mem]
          intro m hm
          exact (hkids _ m hm).2.2
      · exact hkids pt n hn

/-- Whole-forest corollary for `extract_nodes_from_cpp`. -/
theorem extract_nodes_from_cpp_sorted_nested (root : TSNode)
    (hwf : root.wfB = true) :
    ∀ n ∈ extract_nodes_from_cpp root,
      n.sortedB = true ∧ n.nestedB = true := by
  intro n hn
  exact (processCppNode_sorted_nested root hwf none n hn).2

theorem tryKws_some_shorter {kws : List String} {cs r : List Char}
    (hk : ∀ k ∈ kws, k.toList ≠ []) (h : tryKws kws cs = some r) :
    r.length < cs.length := by
  induction kws with
  | nil => cases h
  | cons k rest ih =>
    rw [tryKws] at h
    cases hd : dropKw k cs with
    | some r2 =>
      rw [hd] at h
      cases h
      rw [dropKw] at hd
      split at hd
      · cases hd
        next hp =>
          have hlen := List.IsPrefix.length_le
            (List.isPrefixOf_iff_prefix.mp hp)
          have hne : k.toList ≠ [] := hk k (by simp)
          have : 0 < k.toList.length := List.length_pos.mpr hne
          simp only [List.length_drop]
          omega
      · cases hd
    | none =>
      rw [hd] at h
      exact ih (fun x hx => hk x (by simp [hx])) h

theorem kAttach_stack_length (st : KState) (f : KFrame) (tree : CNode)
    (restStack : List KFrame) :
    (kAttach st f tree restStack).stack.length = restStack.length := by
  cases restStack <;> simp [kAttach]

theorem RootsGood.monoR {t t' : Nat} {roots : List CNode} (h : t ≤ t')
    (hr : RootsGood t roots) : RootsGood t' roots := by
  intro c hc
  exact ⟨(hr c hc).1, (hr c hc).2.1, le_trans (hr c hc).2.2 h⟩

theorem FrameGood.monoF {tf tf' tc tc' : Nat} {f : KFrame} (h1 : tf ≤ tf')
    (h2 : tc ≤ tc') (hf : FrameGood tf tc f) : FrameGood tf' tc' f := by
  refine ⟨le_trans hf.1 h1, fun c hc => ?_⟩
  have := hf.2 c hc
  exact ⟨this.1, this.2.1, this.2.2.1, le_trans this.2.2.2 h2⟩

theorem StackInv.monoS {tf tf' tc tc' rl rl' : Nat} {l : List KFrame}
    (h1 : tf ≤ tf') (h2 : tc ≤ tc') (h3 : rl ≤ rl')
    (hs : StackInv tf tc rl l) : StackInv tf' tc' rl' l := by
  induction l with
  | nil => trivial
  | cons f rest ih =>
    rcases hs with ⟨hf, hi, hh, hrest⟩
    exact ⟨hf.monoF h1 h2, le_trans hi h3, hh, ih hrest⟩

theorem ImpInv.monoI {t t' : Nat} {st : KState} (h : t ≤ t')
    (hi : ImpInv t st) : ImpInv t' st := by
  rw [ImpInv] at hi ⊢
  rcases hs : st.impStart with _ | s <;> rcases he : st.impEnd with _ | e <;>
    rw [hs, he] at hi <;> simp_all
  omega

/-- `kFlushImports` keeps the state good: the flushed `imports` node is
sorted (window invariant), childless, and already ended. -/
theorem kFlushImports_good {t tf tc : Nat} {st : KState}
    (hr : RootsGood t st.roots)
    (hs : StackInv tf tc st.roots.length st.stack)
    (hi : ImpInv t st) :
    RootsGood t (kFlushImports st).roots ∧
      StackInv tf tc (kFlushImports st).roots.length
        (kFlushImports st).stack ∧
      (kFlushImports st).impStart = none ∧
      (kFlushImports st).impEnd = none ∧
      (kFlushImports st).balance = st.balance ∧
      (kFlushImports st).stack = st.stack := by
  rw [ImpInv] at hi
  rcases h1 : st.impStart with _ | s <;> rcases h2 : st.impEnd with _ | e <;>
    rw [h1, h2] at hi
  · have heq : kFlushImports st = st := by rw [kFlushImports, h1, h2]
    rw [heq]
    exact ⟨hr, hs, h1, h2, rfl, rfl⟩
  · cases hi
  · cases hi
  · rw [kFlushImports, h1, h2]
    refine ⟨?_, ?_, rfl, rfl, rfl, rfl⟩
    · intro c hc
      simp only [List.mem_append, List.mem_singleton] at hc
      rcases hc with hc | rfl
      · exact hr c hc
      · refine ⟨?_, ?_, ?_⟩
        · simp only [kImportsNode, CNode.sortedB_mk, sortedOptB_some,
            sortedListB_nil, Bool.and_eq_true, decide_eq_true_eq]
          exact ⟨hi.1, trivial⟩
        · simp [kImportsNode]
        · simpa [kImportsNode] using hi.2
    · simp only [List.length_append, List.length_singleton]
      exact hs.monoS (le_refl _) (le_refl _) (by omega)

/-- Closing a good frame at line `n` yields a sorted, nested, ended
tree. -/
theorem kCloseFrame_good {tf tc n : Nat} {f : KFrame}
    (hf : FrameGood tf tc f) (h1 : tf ≤ n) (h2 : tc ≤ n) :
    (kCloseFrame f n).sortedB = true ∧ (kCloseFrame f n).nestedB = true ∧
      (kCloseFrame f n).fields.endLine ≤ n ∧
      (kCloseFrame f n).fields.startLine = f.startLine := by
  refine ⟨?_, ?_, ?_, rfl⟩
  · simp only [kCloseFrame, CNode.sortedB_mk, sortedOptB_some,
      Bool.and_eq_true, decide_eq_true_eq]
    refine ⟨le_trans hf.1 h1, (sortedListB_iff_mem _).mpr ?_⟩
    intro c hc
    exact (hf.2 c hc).1
  · simp only [kCloseFrame, CNode.nestedB_mk, nestedOptB_some,
      Option.getD_some, List.all_eq_true, Bool.and_eq_true,
      decide_eq_true_eq, CNode.fields_mk]
    constructor
    · intro c hc
      have := hf.2 c hc
      exact ⟨le_of_lt this.2.2.1, le_trans this.2.2.2 h2⟩
    · exact (nestedListB_iff_mem _).mpr fun c hc => (hf.2 c hc).2.1
  · simp only [kCloseFrame, CNode.fields_mk]
    exact le_refl _

/-- The attach-and-keep-popping loop preserves the invariant: the carried
tree lands as the last child of the next surviving frame, or in its
reserved root slot when the stack empties. -/
theorem kPopAttach_good (n : Nat) (bal : Int) :
    ∀ (stack : List KFrame) (tree : CNode) (idx : Nat)
      (roots : List CNode) (tf tc : Nat), tf ≤ n → tc ≤ n →
      RootsGood n roots →
      StackInv tf tc roots.length stack →
      idx ≤ roots.length →
      tree.sortedB = true → tree.nestedB = true →
      tree.fields.endLine ≤ n →
      (∀ g ∈ stack.head?, g.startLine < tree.fields.startLine) →
      RootsGood n (kPopAttach n bal stack tree idx roots).2 ∧
        StackInv tf n (kPopAttach n bal stack tree idx roots).2.length
          (kPopAttach n bal stack tree idx roots).1 := by
  intro stack
  induction stack with
  | nil =>
    intro tree idx roots tf tc h1 h2 hr hs hidx hts htn hte hh
    rw [kPopAttach]
    constructor
    · intro c hc
      rcases (List.mem_insertIdx hidx).mp hc with rfl | hc
      · exact ⟨hts, htn, hte⟩
      · exact hr c hc
    · trivial
  | cons g gs ih =>
    intro tree idx roots tf tc h1 h2 hr hs hidx hts htn hte hh
    rcases hs with ⟨hg, hgi, hgh, hrest⟩
    have hgood2 : FrameGood tf n
        { g with children := g.children ++ [tree] } := by
      refine ⟨hg.1, fun c hc => ?_⟩
      simp only [List.mem_append, List.mem_singleton] at hc
      rcases hc with hc | rfl
      · have := hg.2 c hc
        exact ⟨this.1, this.2.1, this.2.2.1, le_trans this.2.2.2 h2⟩
      · exact ⟨hts, htn, hh g (by simp), hte⟩
    rw [kPopAttach]
    split
    · have hcl := kCloseFrame_good hgood2 h1 (le_refl n)
      exact ih (kCloseFrame { g with children := g.children ++ [tree] } n)
        ({ g with children := g.children ++ [tree] } : KFrame).rootIdx
        roots tf tc h1 h2 hr hrest hgi hcl.1 hcl.2.1 hcl.2.2.1
        (by
          intro g2 hg2
          rw [hcl.2.2.2]
          exact hgh g2 hg2)
    · refine ⟨hr, hgood2, hgi, ?_, hrest.monoS (le_refl _) h2 (le_refl _)⟩
      intro g2 hg2
      exact hgh g2 hg2

theorem kPopLoop_nil {n : Nat} {st : KState} (h : st.stack = []) :
    kPopLoop n st = st := by
  rw [kPopLoop, h]

theorem kPopLoop_cons {n : Nat} {st : KState} {f : KFrame}
    {rest : List KFrame} (h : st.stack = f :: rest) :
    kPopLoop n st =
      if st.balance ≤ f.startBalance then
        { st with
          stack := (kPopAttach n st.balance rest (kCloseFrame f n)
            f.rootIdx st.roots).1,
          roots := (kPopAttach n st.balance rest (kCloseFrame f n)
            f.rootIdx st.roots).2 }
      else st := by
  rw [kPopLoop, h]

/-- The scope-closing loop preserves the invariant (children closed at
line `n`), touching neither balance nor the import window. -/
theorem kPopLoop_good {n tf tc : Nat} {st : KState} (h1 : tf ≤ n)
    (h2 : tc ≤ n) (hr : RootsGood n st.roots)
    (hs : StackInv tf tc st.roots.length st.stack) :
    RootsGood n (kPopLoop n st).roots ∧
      StackInv tf n (kPopLoop n st).roots.length (kPopLoop n st).stack ∧
      (kPopLoop n st).balance = st.balance ∧
      (kPopLoop n st).impStart = st.impStart ∧
      (kPopLoop n st).impEnd = st.impEnd := by
  rcases hst : st.stack with _ | ⟨f, rest⟩
  · rw [kPopLoop_nil hst, hst]
    exact ⟨hr, trivial, rfl, rfl, rfl⟩
  · rw [kPopLoop_cons hst]
    rw [hst] at hs
    rcases hs with ⟨hf, hfi, hfh, hrest⟩
    split
    · have hcl := kCloseFrame_good hf h1 h2
      have hmain := kPopAttach_good n st.balance rest (kCloseFrame f n)
        f.rootIdx st.roots tf tc h1 h2 hr hrest hfi hcl.1 hcl.2.1
        hcl.2.2.1
        (by
          intro g2 hg2
          rw [hcl.2.2.2]
          exact hfh g2 hg2)
      exact ⟨hmain.1, hmain.2, rfl, rfl, rfl⟩
    · exact ⟨hr, hst ▸ ⟨hf.monoF (le_refl _) h2, hfi, hfh,
        hrest.monoS (le_refl _) h2 (le_refl _)⟩, rfl, rfl, rfl⟩

/-- Pushing a freshly detected declaration's frame preserves the stack
invariant: the new frame starts at the current line (strictly inside
every remaining frame) with no children and a fresh reserved root
slot. -/
theorem kPush_good {tf tc n : Nat} {st : KState} (htf : tf < n)
    (htc : tc ≤ n)
    (hs : StackInv tf tc st.roots.length st.stack)
    (line : String) (title ntype : String) (sig : Option String) :
    StackInv n n (kPush st n line title ntype sig).roots.length
      (kPush st n line title ntype sig).stack ∧
      (kPush st n line title ntype sig).roots = st.roots ∧
      (kPush st n line title ntype sig).impStart = st.impStart ∧
      (kPush st n line title ntype sig).impEnd = st.impEnd := by
  refine ⟨?_, rfl, rfl, rfl⟩
  rw [kPush]
  refine ⟨⟨le_refl n, by simp⟩, le_refl _, ?_,
    hs.monoS (by omega) htc (le_refl _)⟩
  intro g hg
  rcases hst : st.stack with _ | ⟨f, rest⟩
  · rw [hst] at hg; cases hg
  · rw [hst] at hg
    simp only [List.head?_cons, Option.mem_def, Option.some.injEq] at hg
    subst hg
    rw [hst] at hs
    exact lt_of_le_of_lt hs.1.1 htf

theorem ImpInv_of_eq {t : Nat} {st st2 : KState}
    (h1 : st2.impStart = st.impStart) (h2 : st2.impEnd = st.impEnd)
    (h : ImpInv t st) : ImpInv t st2 := by
  rw [ImpInv] at h ⊢
  rw [h1, h2]
  exact h

theorem ImpInv_none {t : Nat} {st : KState} (h1 : st.impStart = none)
    (h2 : st.impEnd = none) : ImpInv t st := by
  rw [ImpInv, h1, h2]
  trivial

/-- The pre-detection part of a line preserves the invariant and leaves
the import window closed or untouched. -/
theorem kLineCore_good {t n : Nat} {st : KState} (ht : t < n)
    (h : KInv t st) (line : String) :
    RootsGood n (kLineCore st n line).roots ∧
      StackInv t n (kLineCore st n line).roots.length
        (kLineCore st n line).stack ∧
      ImpInv n (kLineCore st n line) := by
  obtain ⟨hr, hs, hi⟩ := h
  rw [kLineCore]
  split
  · have hfl := kFlushImports_good hr hs hi
    set st1 := kFlushImports st with hst1
    have h2 := @kPopLoop_good n t t { st1 with
      balance := st1.balance + count_braces line } (le_of_lt ht)
      (le_of_lt ht) (hfl.1.monoR (le_of_lt ht)) hfl.2.1
    refine ⟨h2.1, h2.2.1, ?_⟩
    refine ImpInv_of_eq h2.2.2.2.1 h2.2.2.2.2 ?_
    exact ImpInv_none (by simpa using hfl.2.2.1) (by simpa using hfl.2.2.2.1)
  · have h2 := @kPopLoop_good n t t { st with
      balance := st.balance + count_braces line } (le_of_lt ht)
      (le_of_lt ht) (hr.monoR (le_of_lt ht)) hs
    refine ⟨h2.1, h2.2.1, ?_⟩
    refine ImpInv_of_eq h2.2.2.2.1 h2.2.2.2.2 ?_
    exact ImpInv_of_eq rfl rfl (hi.monoI (le_of_lt ht))

/-- Declaration detection preserves the invariant. -/
theorem kDetect_good {t n : Nat} {st3 : KState} (ht : t < n)
    (hr : RootsGood n st3.roots)
    (hs : StackInv t n st3.roots.length st3.stack)
    (hi : ImpInv n st3) (line : String) :
    KInv n (kDetect st3 n line) := by
  rw [kDetect]
  rcases classMatch line with _ | ⟨tok, name⟩
  · rcases funMatch line with _ | name
    · exact ⟨hr, hs.monoS (le_of_lt ht) (le_refl _) (le_refl _), hi⟩
    · have hp := kPush_good ht (le_refl n) hs line (name ++ "()")
        (match st3.stack with
          | f :: _ => if f.ntype ∈ kClassLikeTypes then "method"
              else "function"
          | [] => "function")
        (some (kotlinFunSignature line))
      refine ⟨by rw [hp.2.1]; exact hr, hp.1, ?_⟩
      exact ImpInv_of_eq hp.2.2.1 hp.2.2.2 hi
  · have hp := kPush_good ht (le_refl n) hs line name (kClassTokType tok)
      none
    refine ⟨by rw [hp.2.1]; exact hr, hp.1, ?_⟩
    exact ImpInv_of_eq hp.2.2.1 hp.2.2.2 hi

/-- One line preserves the scanner invariant. -/
theorem kProcessLine_inv {t n : Nat} {st : KState} (ht : t < n)
    (h : KInv t st) (line : String) :
    KInv n (kProcessLine st n line) := by
  rw [kProcessLine]
  split
  · obtain ⟨hr, hs, hi⟩ := h
    refine ⟨hr.monoR (le_of_lt ht), ?_, ?_⟩
    · exact hs.monoS (le_of_lt ht) (le_of_lt ht) (le_refl _)
    · rw [ImpInv] at hi
      rw [kImportUpdate, ImpInv]
      rcases h1 : st.impStart with _ | s <;>
        rcases h2 : st.impEnd with _ | e <;> rw [h1, h2] at hi
      · simp
      · cases hi
      · cases hi
      · simp only [Option.getD_some]
        exact ⟨le_trans hi.1 (by omega), le_refl n⟩
  · have hc := kLineCore_good ht h line
    exact kDetect_good ht hc.1 hc.2.1 hc.2.2 line

/-- The whole line loop preserves the invariant. -/
theorem kScanLines_inv :
    ∀ (lines : List String) (st : KState) (i : Nat), KInv i st →
      KInv (i + lines.length) (kScanLines st i lines) := by
  intro lines
  induction lines with
  | nil =>
    intro st i h
    simpa [kScanLines] using h
  | cons line rest ih =>
    intro st i h
    rw [kScanLines]
    have h1 := kProcessLine_inv (n := i + 1) (by omega) h line
    have h2 := ih (kProcessLine st (i + 1) line) (i + 1) h1
    have : i + (line :: rest).length = (i + 1) + rest.length := by
      simp
      omega
    rw [this]
    exact h2

theorem kCloseFrame_sortedB {f : KFrame} {e : Nat} (h1 : f.startLine ≤ e)
    (h2 : ∀ c ∈ f.children, c.sortedB = true) :
    (kCloseFrame f e).sortedB = true := by
  simp only [kCloseFrame, CNode.sortedB_mk, sortedOptB_some,
    Bool.and_eq_true, decide_eq_true_eq]
  exact ⟨h1, (sortedListB_iff_mem _).mpr h2⟩

/-- The end-of-file finalization keeps every root sorted: an unclosed
frame becomes a single-line node (`end_line = start_line`) whose already
completed children are sorted. -/
theorem kFinAttach_sorted :
    ∀ (stack : List KFrame) (tree : CNode) (idx : Nat)
      (roots : List CNode) (tf tc : Nat),
      StackInv tf tc roots.length stack → idx ≤ roots.length →
      (∀ c ∈ roots, c.sortedB = true) → tree.sortedB = true →
      ∀ c ∈ kFinAttach stack tree idx roots, c.sortedB = true := by
  intro stack
  induction stack with
  | nil =>
    intro tree idx roots tf tc hs hidx hr ht c hc
    rw [kFinAttach] at hc
    rcases (List.mem_insertIdx hidx).mp hc with rfl | hc
    · exact ht
    · exact hr c hc
  | cons g gs ih =>
    intro tree idx roots tf tc hs hidx hr ht c hc
    rcases hs with ⟨hg, hgi, hgh, hrest⟩
    rw [kFinAttach] at hc
    refine ih _ _ _ tf tc hrest hgi hr ?_ c hc
    refine kCloseFrame_sortedB (le_refl _) ?_
    intro x hx
    simp only [List.mem_append, List.mem_singleton] at hx
    rcases hx with hx | rfl
    · exact (hg.2 x hx).1
    · exact ht

theorem kFinalize_nil {st : KState} (h : st.stack = []) :
    kFinalize st = st := by
  rw [kFinalize, h]

/-- After finalization, every root the scanner returns is sorted. -/
theorem kFinalize_sorted {st : KState} {tf tc : Nat}
    (hs : StackInv tf tc st.roots.length st.stack)
    (hr : ∀ c ∈ st.roots, c.sortedB = true) :
    ∀ c ∈ (kFinalize st).roots, c.sortedB = true := by
  rcases hst : st.stack with _ | ⟨f, rest⟩
  · rw [kFinalize_nil hst]
    exact hr
  · rw [hst] at hs
    rcases hs with ⟨hf, hfi, hfh, hrest⟩
    have heq : (kFinalize st).roots =
        kFinAttach rest (kCloseFrame f f.startLine) f.rootIdx st.roots := by
      rw [kFinalize, hst]
    rw [heq]
    exact kFinAttach_sorted rest _ _ _ _ _ hrest hfi hr
      (kCloseFrame_sortedB (le_refl _) fun x hx => (hf.2 x hx).1)

/-- The scanner invariant holds at end of scan (after the trailing import
flush). -/
theorem kotlinScanEndState_inv (lines : List String) :
    KInv lines.length (kotlinScanEndState lines) := by
  have h0 : KInv 0 kInitState := by
    refine ⟨?_, trivial, ?_⟩
    · intro c hc
      simp [kInitState] at hc
    · rw [ImpInv]
      trivial
  have h1 := kScanLines_inv lines kInitState 0 h0
  rw [Nat.zero_add] at h1
  obtain ⟨hr, hs, hi⟩ := h1
  have hfl := kFlushImports_good hr hs hi
  exact ⟨hfl.1, hfl.2.1, ImpInv_none hfl.2.2.1 hfl.2.2.2.1⟩

/-- Every node the heuristic scanner produces satisfies
`start_line ≤ end_line`, for every input. -/
theorem extract_nodes_from_kotlin_sorted (lines : List String) :
    ∀ c ∈ extract_nodes_from_kotlin lines, c.sortedB = true := by
  obtain ⟨hr, hs, _⟩ := kotlinScanEndState_inv lines
  rw [extract_nodes_from_kotlin, kotlinScanState]
  exact kFinalize_sorted hs fun c hc => (hr c hc).1

/-- When the scan closes every scope it opened (empty stack at end of
file), every node the scanner produces is also nested. -/
theorem extract_nodes_from_kotlin_nested_of_closed (lines : List String)
    (h : (kotlinScanEndState lines).stack = []) :
    ∀ c ∈ extract_nodes_from_kotlin lines, c.nestedB = true := by
  obtain ⟨hr, _, _⟩ := kotlinScanEndState_inv lines
  rw [extract_nodes_from_kotlin, kotlinScanState, kFinalize_nil h]
  exact fun c hc => (hr c hc).2.1

theorem kPopLoop_balance (n : Nat) (st : KState) :
    (kPopLoop n st).balance = st.balance := by
  rcases hst : st.stack with _ | ⟨f, rest⟩
  · rw [kPopLoop_nil hst]
  · rw [kPopLoop_cons hst]
    split <;> rfl

theorem kFlushImports_balance (st : KState) :
    (kFlushImports st).balance = st.balance := by
  rw [kFlushImports]
  rcases st.impStart with _ | s <;> rcases st.impEnd with _ | e <;> rfl

/-- The running balance after a non-import line is the old balance plus
this line's brace delta computed on the comment- and quote-stripped
line (`count_braces`); neither the flush nor the pop loop touches it. -/
theorem kLineCore_balance (st : KState) (n : Nat) (line : String) :
    (kLineCore st n line).balance = st.balance + count_braces line := by
  rw [kLineCore]
  split
  · rw [kPopLoop_balance]
    simp only
    rw [kFlushImports_balance]
  · rw [kPopLoop_balance]

/-- `count_braces` strips the `//` comment, then blanks double-quoted
contents, then single-quoted contents, and only then counts braces. -/
theorem count_braces_strips (line : String) :
    count_braces line =
      ((blankQuoted (Char.ofNat 39) (blankQuoted '"'
          (stripLineComment line.toList))).count '{' : Int) -
        ((blankQuoted (Char.ofNat 39) (blankQuoted '"'
          (stripLineComment line.toList))).count '}' : Int) := rfl

/-- A detected class-like declaration is pushed with the raw-line
baseline: the balance after this line, minus one exactly when the RAW
line contains `{` (quoted or commented braces included). -/
theorem kDetect_class_push (st3 : KState) (n : Nat) (line : String)
    (tok : KClassTok) (name : String)
    (h : classMatch line = some (tok, name)) :
    kDetect st3 n line = kPush st3 n line name (kClassTokType tok) none ∧
      ∃ f rest, (kDetect st3 n line).stack = f :: rest ∧
        rest = st3.stack ∧
        f.title = name ∧ f.ntype = kClassTokType tok ∧
        f.startLine = n ∧ f.children = [] ∧
        f.startBalance =
          st3.balance - (if line.toList.contains '{' then 1 else 0) := by
  constructor
  · rw [kDetect, h]
  · refine
      ⟨{ title := name,
         ntype := kClassTokType tok,
         startLine := n,
         signature := none,
         startBalance := st3.balance -
           (if line.toList.contains '{' then 1 else 0),
         children := [],
         rootIdx := st3.roots.length },
        st3.stack, ?_, rfl, rfl, rfl, rfl, rfl, rfl⟩
    rw [kDetect, h]
    rfl

/-- A detected function-like declaration (class pattern failed) is pushed
with the raw-line baseline. -/
theorem kDetect_fun_push (st3 : KState) (n : Nat) (line : String)
    (name : String) (hc : classMatch line = none)
    (hf : funMatch line = some name) :
    ∃ f rest, (kDetect st3 n line).stack = f :: rest ∧
      rest = st3.stack ∧ f.title = name ++ "()" ∧ f.startLine = n ∧
      f.startBalance =
        st3.balance - (if line.toList.contains '{' then 1 else 0) := by
  refine
    ⟨{ title := name ++ "()",
       ntype :=
         match st3.stack with
         | f :: _ => if f.ntype ∈ kClassLikeTypes then "method"
             else "function"
         | [] => "function",
       startLine := n,
       signature := some (kotlinFunSignature line),
       startBalance := st3.balance -
         (if line.toList.contains '{' then 1 else 0),
       children := [],
       rootIdx := st3.roots.length },
      st3.stack, ?_, rfl, rfl, rfl, rfl⟩
  rw [kDetect, hc, hf]
  rfl

theorem kPush_eq (st : KState) (n : Nat) (line title ntype : String)
    (sig : Option String) :
    kPush st n line title ntype sig =
      { st with
        stack :=
          { title := title, ntype := ntype, startLine := n,
            signature := sig,
            startBalance := st.balance -
              (if line.toList.contains '{' then 1 else 0),
            children := [], rootIdx := st.roots.length } :: st.stack } :=
  rfl

theorem kImportsNode_countType (s e : Nat) :
    (kImportsNode s e).countType "imports" = 1 := by
  simp [kImportsNode]

theorem kCloseFrame_countType_zero {f : KFrame} {e : Nat}
    (h : f.ntype ≠ "imports") (hc : f.children = []) :
    (kCloseFrame f e).countType "imports" = 0 := by
  simp [kCloseFrame, hc, h]

/-- The heuristic scanner on an import line, a blank line, another import
line and then any non-import line produces exactly one `imports` node,
spanning line 1 to line 3. -/
theorem kotlin_import_run (i1 i2 s : String)
    (h1 : kIsImportLine i1 = true) (h2 : kIsImportLine i2 = true)
    (h3 : kIsImportLine s = false) :
    countTypeList "imports" (extract_nodes_from_kotlin [i1, "", i2, s]) =
        1 ∧
      ∃ c ∈ extract_nodes_from_kotlin [i1, "", i2, s],
        c.fields.type = "imports" ∧ c.fields.startLine = 1 ∧
          c.fields.endLine = 3 := by
  have e0 : kScanLines kInitState 0 [i1, "", i2, s] =
      kProcessLine (kProcessLine (kProcessLine
        (kProcessLine kInitState 1 i1) 2 "") 3 i2) 4 s := by
    rw [kScanLines, kScanLines, kScanLines, kScanLines, kScanLines]
  have eA : kProcessLine kInitState 1 i1 =
      ⟨[], [], 0, some 1, some 1⟩ := by
    rw [kProcessLine, if_pos h1]
    rfl
  have eB : kProcessLine (⟨[], [], 0, some 1, some 1⟩ : KState) 2 "" =
      ⟨[], [], 0, some 1, some 1⟩ := by
    rw [kProcessLine, if_neg (by decide)]
    rfl
  have eC : kProcessLine (⟨[], [], 0, some 1, some 1⟩ : KState) 3 i2 =
      ⟨[], [], 0, some 1, some 3⟩ := by
    rw [kProcessLine, if_pos h2]
    rfl
  have eD : kProcessLine (⟨[], [], 0, some 1, some 3⟩ : KState) 4 s =
      kDetect (kLineCore ⟨[], [], 0, some 1, some 3⟩ 4 s) 4 s := by
    rw [kProcessLine, if_neg (by simp [h3])]
  rw [extract_nodes_from_kotlin, kotlinScanState, kotlinScanEndState, e0,
    eA, eB, eC, eD]
  by_cases hf : kFlushCond s = true
  · have ecore : kLineCore (⟨[], [], 0, some 1, some 3⟩ : KState) 4 s =
        ⟨[kImportsNode 1 3], [], 0 + count_braces s, none, none⟩ := by
      rw [kLineCore, if_pos hf]
      rw [kPopLoop_nil rfl]
      rfl
    rw [ecore]
    rcases hcm : classMatch s with _ | ⟨tok, name⟩
    · rcases hfm : funMatch s with _ | name
      · simp only [kDetect, hcm, hfm, kFlushImports, kFinalize,
          countTypeList_cons, countTypeList_nil, kImportsNode_countType]
        constructor
        · trivial
        · exact ⟨kImportsNode 1 3, by simp, rfl, rfl, rfl⟩
      · simp only [kDetect, hcm, hfm, kPush_eq, kFlushImports, kFinalize,
          kFinAttach, List.length_singleton, List.length_nil,
          List.insertIdx_succ_cons, List.insertIdx_zero,
          countTypeList_cons, countTypeList_nil, kImportsNode_countType]
        constructor
        · rw [kCloseFrame_countType_zero (by simp) rfl]
        · exact ⟨kImportsNode 1 3, by simp, rfl, rfl, rfl⟩
    · simp only [kDetect, hcm, kPush_eq, kFlushImports, kFinalize,
        kFinAttach, List.length_singleton, List.length_nil,
        List.insertIdx_succ_cons, List.insertIdx_zero,
        countTypeList_cons, countTypeList_nil, kImportsNode_countType]
      constructor
      · rw [kCloseFrame_countType_zero
          (by cases tok <;> simp [kClassTokType]) rfl]
      · exact ⟨kImportsNode 1 3, by simp, rfl, rfl, rfl⟩
  · have ecore : kLineCore (⟨[], [], 0, some 1, some 3⟩ : KState) 4 s =
        ⟨[], [], 0 + count_braces s, some 1, some 3⟩ := by
      rw [kLineCore, if_neg hf]
      rw [kPopLoop_nil rfl]
    rw [ecore]
    rcases hcm : classMatch s with _ | ⟨tok, name⟩
    · rcases hfm : funMatch s with _ | name
      · simp only [kDetect, hcm, hfm, kFlushImports, kFinalize,
          List.nil_append, countTypeList_cons, countTypeList_nil,
          kImportsNode_countType]
        constructor
        · trivial
        · exact ⟨kImportsNode 1 3, by simp, rfl, rfl, rfl⟩
      · simp only [kDetect, hcm, hfm, kPush_eq, kFlushImports, kFinalize,
          kFinAttach, List.nil_append, List.length_singleton,
          List.length_nil, List.insertIdx_succ_cons, List.insertIdx_zero,
          countTypeList_cons, countTypeList_nil, kImportsNode_countType]
        constructor
        · rw [kCloseFrame_countType_zero (by simp) rfl]
        · exact ⟨kImportsNode 1 3, by simp, rfl, rfl, rfl⟩
    · simp only [kDetect, hcm, kPush_eq, kFlushImports, kFinalize,
        kFinAttach, List.nil_append, List.length_singleton,
        List.length_nil, List.insertIdx_succ_cons, List.insertIdx_zero,
        countTypeList_cons, countTypeList_nil, kImportsNode_countType]
      constructor
      · rw [kCloseFrame_countType_zero
          (by cases tok <;> simp [kClassTokType]) rfl]
      · exact ⟨kImportsNode 1 3, by simp, rfl, rfl, rfl⟩

@[simp] theorem thinList_nil (tok : String → Nat) (thr : Nat) :
    thinList tok thr [] = [] := by
  rw [thinList]

@[simp] theorem thinList_cons (tok : String → Nat) (thr : Nat)
    (c : CNode) (cs : List CNode) :
    thinList tok thr (c :: cs) =
      thin_node tok thr c :: thinList tok thr cs := by
  rw [thinList]

theorem thinList_idem (tok : String → Nat) (thr : Nat)
    {cs : List CNode}
    (h : ∀ x ∈ cs,
      thin_node tok thr (thin_node tok thr x) = thin_node tok thr x) :
    thinList tok thr (thinList tok thr cs) = thinList tok thr cs := by
  induction cs with
  | nil => simp
  | cons c rest ih =>
    simp only [thinList_cons]
    rw [h c (by simp), ih fun x hx => h x (by simp [hx])]

/-- `thin_node` is idempotent: a merged node has no `nodes` key and is
returned unchanged; an unmerged node has unchanged (already thinned)
children, so the second run recomputes the same token total and makes the
same decision. -/
theorem thin_node_idem (tok : String → Nat) (thr : Nat) :
    ∀ n : CNode,
      thin_node tok thr (thin_node tok thr n) = thin_node tok thr n := by
  apply CNode.inductionOn
    (P := fun n =>
      thin_node tok thr (thin_node tok thr n) = thin_node tok thr n)
  intro n ih
  rcases n with ⟨f, k⟩
  rcases k with _ | l
  · simp only [thin_node]
  · rcases l with _ | ⟨c, cs⟩
    · simp only [thin_node]
    · have hc : thin_node tok thr (thin_node tok thr c) =
          thin_node tok thr c := by
        apply ih
        simp [CNode.childList]
      have hcs : thinList tok thr (thinList tok thr cs) =
          thinList tok thr cs := by
        apply thinList_idem
        intro x hx
        apply ih
        simp [CNode.childList, hx]
      rw [thin_node]
      split
      · rw [thin_node]
      · rw [thin_node, hc, hcs]
        split
        · next hcond =>
          exfalso
          next hcond2 => exact hcond2 hcond
        · rfl

/-- `tree_thinning_for_code` is idempotent for every token counter and
threshold. -/
theorem tree_thinning_for_code_idem (tok : String → Nat) (thr : Nat)
    (t : CNode) :
    tree_thinning_for_code tok thr (tree_thinning_for_code tok thr t) =
      tree_thinning_for_code tok thr t := by
  simp only [tree_thinning_for_code]
  exact thin_node_idem tok thr t

theorem gatherE_error {E α : Type} :
    ∀ l : List (Except E α), (∃ x ∈ l, ∃ e, x = .error e) →
      ∃ e, gatherE l = .error e := by
  intro l
  induction l with
  | nil => rintro ⟨x, hx, _⟩; cases hx
  | cons a rest ih =>
    rintro ⟨x, hx, e, hxe⟩
    rcases List.mem_cons.mp hx with rfl | hx2
    · subst hxe
      exact ⟨e, by rw [gatherE]⟩
    · cases a with
      | error e2 => exact ⟨e2, by rw [gatherE]⟩
      | ok v =>
        rcases ih ⟨x, hx2, e, hxe⟩ with ⟨e3, he3⟩
        refine ⟨e3, ?_⟩
        rw [gatherE, he3]

/-- If any single per-node request fails, the whole summarization batch
fails: the error propagates and no tree is produced (the assignment loop
never runs). -/
theorem generate_summaries_fail_fast {E : Type}
    (summ : CNode → Except E String) (t : CNode)
    (h : ∃ n ∈ codeNodes t, ∃ e, summ n = .error e) :
    (∃ e, generate_summaries_for_code_structure summ t = .error e) ∧
      ∀ t2, generate_summaries_for_code_structure summ t ≠ .ok t2 := by
  rcases h with ⟨n, hn, e, hne⟩
  have hg : ∃ e2, gatherE ((codeNodes t).map summ) = .error e2 := by
    apply gatherE_error
    exact ⟨summ n, List.mem_map_of_mem summ hn, e, hne⟩
  rcases hg with ⟨e2, he2⟩
  constructor
  · exact ⟨e2, by rw [generate_summaries_for_code_structure, he2]⟩
  · intro t2 hcontra
    rw [generate_summaries_for_code_structure, he2] at hcontra
    cases hcontra

theorem gatherE_ok_map {E α β : Type} (f : β → α) (l : List β) :
    gatherE (l.map fun b => (Except.ok (f b) : Except E α)) =
      .ok (l.map f) := by
  induction l with
  | nil => rfl
  | cons b rest ih =>
    simp only [List.map_cons]
    rw [gatherE, ih]

/-- With every request succeeding, the summarization stage is the
assignment map followed by `preserve_imports_text`. -/
theorem summarizeStage_eq (f : CNode → String) (t : CNode) :
    summarizeStage f t =
      preserve_imports_text
        (assignNode (fun n => (Except.ok (f n) : Except Unit String)) t) := by
  rw [summarizeStage, generate_summaries_for_code_structure]
  rw [show ((codeNodes t).map fun n =>
      (Except.ok (f n) : Except Unit String)) =
    ((codeNodes t).map fun n =>
      (Except.ok (f n) : Except Unit String)) from rfl]
  rw [gatherE_ok_map f (codeNodes t)]

@[simp] theorem flattenList_nil : flattenList [] = [] := by rw [flattenList]

@[simp] theorem flattenList_cons (c : CNode) (cs : List CNode) :
    flattenList (c :: cs) = flattenNode c ++ flattenList cs := by
  rw [flattenList]

@[simp] theorem flattenOpt_none : flattenOpt none = [] := by rw [flattenOpt]

@[simp] theorem flattenOpt_some (l : List CNode) :
    flattenOpt (some l) = flattenList l := by rw [flattenOpt]

theorem flattenList_mem {m : CNode} {l : List CNode} :
    m ∈ flattenList l ↔ ∃ c ∈ l, m ∈ flattenNode c := by
  induction l with
  | nil => simp
  | cons c cs ih =>
    simp only [flattenList_cons, List.mem_append, ih, List.mem_cons]
    constructor
    · rintro (h | ⟨x, hx, h⟩)
      · exact ⟨c, Or.inl rfl, h⟩
      · exact ⟨x, Or.inr hx, h⟩
    · rintro ⟨x, rfl | hx, h⟩
      · exact Or.inl h
      · exact Or.inr ⟨x, hx, h⟩

theorem flattenNode_mem {m : CNode} {f : CFields}
    {k : Option (List CNode)} :
    m ∈ flattenNode (.mk f k) ↔
      m = .mk f k ∨ ∃ c ∈ k.getD [], m ∈ flattenNode c := by
  rw [flattenNode]
  rcases k with _ | l
  · simp
  · simp only [flattenOpt_some, List.mem_cons, Option.getD_some,
      flattenList_mem]

@[simp] theorem noSummN_mk (f : CFields) (k : Option (List CNode)) :
    noSummN (.mk f k) =
      (f.summary.isNone && f.prefixSummary.isNone && noSummO k) := by
  rw [noSummN]

@[simp] theorem noSummO_none : noSummO none = true := by rw [noSummO]

@[simp] theorem noSummO_some (l : List CNode) :
    noSummO (some l) = noSummL l := by rw [noSummO]

@[simp] theorem noSummL_nil : noSummL [] = true := by rw [noSummL]

@[simp] theorem noSummL_cons (c : CNode) (cs : List CNode) :
    noSummL (c :: cs) = (noSummN c && noSummL cs) := by rw [noSummL]

@[simp] theorem c1PostN_mk (f : CFields) (k : Option (List CNode)) :
    c1PostN (.mk f k) = (c1Fields f k && c1PostO k) := by rw [c1PostN]

@[simp] theorem c1PostO_none : c1PostO none = true := by rw [c1PostO]

@[simp] theorem c1PostO_some (l : List CNode) :
    c1PostO (some l) = c1PostL l := by rw [c1PostO]

@[simp] theorem c1PostL_nil : c1PostL [] = true := by rw [c1PostL]

@[simp] theorem c1PostL_cons (c : CNode) (cs : List CNode) :
    c1PostL (c :: cs) = (c1PostN c && c1PostL cs) := by rw [c1PostL]

@[simp] theorem assignList_nil {E : Type} (e : CNode → Except E String) :
    assignList e [] = [] := by rw [assignList]

@[simp] theorem assignList_cons {E : Type} (e : CNode → Except E String)
    (c : CNode) (cs : List CNode) :
    assignList e (c :: cs) = assignNode e c :: assignList e cs := by
  rw [assignList]

@[simp] theorem assignOpt_none {E : Type} (e : CNode → Except E String) :
    assignOpt e none = none := by rw [assignOpt]

@[simp] theorem assignOpt_some {E : Type} (e : CNode → Except E String)
    (l : List CNode) : assignOpt e (some l) = some (assignList e l) := by
  rw [assignOpt]

@[simp] theorem preserveList_nil : preserveList [] = [] := by
  rw [preserveList]

@[simp] theorem preserveList_cons (c : CNode) (cs : List CNode) :
    preserveList (c :: cs) =
      preserve_imports_text c :: preserveList cs := by
  rw [preserveList]

@[simp] theorem preserveOpt_none : preserveOpt none = none := by
  rw [preserveOpt]

@[simp] theorem preserveOpt_some (l : List CNode) :
    preserveOpt (some l) = some (preserveList l) := by rw [preserveOpt]

@[simp] theorem CFields_upd_summary_type (f : CFields) (v : Option String) :
    ({ f with summary := v } : CFields).type = f.type := rfl

@[simp] theorem CFields_upd_summary_summary (f : CFields)
    (v : Option String) :
    ({ f with summary := v } : CFields).summary = v := rfl

@[simp] theorem CFields_upd_summary_prefixSummary (f : CFields)
    (v : Option String) :
    ({ f with summary := v } : CFields).prefixSummary =
      f.prefixSummary := rfl

@[simp] theorem CFields_upd_prefixSummary_type (f : CFields)
    (v : Option String) :
    ({ f with prefixSummary := v } : CFields).type = f.type := rfl

@[simp] theorem CFields_upd_prefixSummary_summary (f : CFields)
    (v : Option String) :
    ({ f with prefixSummary := v } : CFields).summary = f.summary := rfl

@[simp] theorem CFields_upd_prefixSummary_prefixSummary (f : CFields)
    (v : Option String) :
    ({ f with prefixSummary := v } : CFields).prefixSummary = v := rfl

/-- `imports` is not one of the summarizable kinds of line 229. -/
theorem imports_not_summaryType : "imports" ∉ summaryTypes := by decide

theorem noSummN_fields {f : CFields} {k : Option (List CNode)}
    (h : noSummN (.mk f k) = true) :
    f.summary = none ∧ f.prefixSummary = none ∧ noSummO k = true := by
  rw [noSummN_mk] at h
  simp only [Bool.and_eq_true] at h
  exact ⟨Option.isNone_iff_eq_none.mp h.1.1,
    Option.isNone_iff_eq_none.mp h.1.2, h.2⟩

/-- The assignment step at one node when every request succeeds. -/
theorem assignNode_ok (summ : CNode → String) (f : CFields)
    (k : Option (List CNode)) :
    assignNode (fun n => (Except.ok (summ n) : Except Unit String))
        (.mk f k) =
      if f.type ∈ summaryTypes then
        if (k.getD []).isEmpty then
          .mk { f with summary := some (summ (.mk f k)) }
            (assignOpt (fun n => (Except.ok (summ n) : Except Unit String))
              k)
        else
          .mk { f with prefixSummary := some (summ (.mk f k)) }
            (assignOpt (fun n => (Except.ok (summ n) : Except Unit String))
              k)
      else
        .mk f
          (assignOpt (fun n => (Except.ok (summ n) : Except Unit String))
            k) := by
  rw [assignNode]

/-- The imports-preservation step at one node. -/
theorem preserve_eq (f : CFields) (k : Option (List CNode)) :
    preserve_imports_text (.mk f k) =
      .mk (if f.type = "imports" then
            { f with summary := some (pyStripStr (f.text.getD "")) }
           else f)
        (preserveOpt k) := by
  rw [preserve_imports_text]

theorem assignOpt_getD_isEmpty {E : Type} (e : CNode → Except E String)
    (k : Option (List CNode)) :
    ((assignOpt e k).getD []).isEmpty = (k.getD []).isEmpty := by
  rcases k with _ | l
  · rfl
  · rcases l with _ | ⟨c, cs⟩ <;> simp

theorem preserveOpt_getD_isEmpty (k : Option (List CNode)) :
    ((preserveOpt k).getD []).isEmpty = (k.getD []).isEmpty := by
  rcases k with _ | l
  · rfl
  · rcases l with _ | ⟨c, cs⟩ <;> simp

theorem c1_stage_list (summ : CNode → String) :
    ∀ l : List CNode,
      (∀ c ∈ l, noSummN c = true →
        c1PostN (preserve_imports_text (assignNode
          (fun n => (Except.ok (summ n) : Except Unit String)) c)) =
          true) →
      noSummL l = true →
      c1PostL (preserveList (assignList
        (fun n => (Except.ok (summ n) : Except Unit String)) l)) =
        true := by
  intro l
  induction l with
  | nil =>
    intro _ _
    rw [assignList_nil, preserveList_nil, c1PostL_nil]
  | cons c cs ih =>
    intro hall hcl
    rw [noSummL_cons, Bool.and_eq_true] at hcl
    rw [assignList_cons, preserveList_cons, c1PostL_cons,
      Bool.and_eq_true]
    exact ⟨hall c (by simp) hcl.1,
      ih (fun x hx hx2 => hall x (by simp [hx]) hx2) hcl.2⟩

/-- After a fully successful assignment pass followed by
`preserve_imports_text`, on a tree with no pre-existing summary fields,
every node satisfies the amended per-node dichotomy. -/
theorem c1_stage_post (summ : CNode → String) :
    ∀ t : CNode, noSummN t = true →
      c1PostN (preserve_imports_text
        (assignNode (fun n => (Except.ok (summ n) : Except Unit String))
          t)) = true := by
  apply CNode.inductionOn
    (P := fun t => noSummN t = true →
      c1PostN (preserve_imports_text
        (assignNode (fun n => (Except.ok (summ n) : Except Unit String))
          t)) = true)
  intro t ih hclean
  rcases t with ⟨f, k⟩
  obtain ⟨hs, hp, hk⟩ := noSummN_fields hclean
  have hkids : c1PostO (preserveOpt (assignOpt
      (fun n => (Except.ok (summ n) : Except Unit String)) k)) = true := by
    rcases k with _ | l
    · rw [assignOpt_none, preserveOpt_none, c1PostO_none]
    · rw [assignOpt_some, preserveOpt_some, c1PostO_some]
      refine c1_stage_list summ l ?_ (by rw [noSummO_some] at hk; exact hk)
      intro c hc
      exact ih c (by simpa using hc)
  rw [assignNode_ok]
  by_cases hty : f.type ∈ summaryTypes
  · have hnotimp : f.type ≠ "imports" := by
      intro hcontra
      rw [hcontra] at hty
      exact imports_not_summaryType hty
    by_cases hemp : (k.getD []).isEmpty = true
    · rw [if_pos hty, if_pos hemp, preserve_eq]
      simp only [CFields_upd_summary_type]
      rw [if_neg hnotimp, c1PostN_mk, Bool.and_eq_true]
      refine ⟨?_, hkids⟩
      rw [c1Fields]
      simp only [CFields_upd_summary_type]
      rw [if_neg hnotimp, if_pos hty, preserveOpt_getD_isEmpty,
        assignOpt_getD_isEmpty, if_pos hemp]
      simp [hp]
    · rw [if_pos hty, if_neg hemp, preserve_eq]
      simp only [CFields_upd_prefixSummary_type]
      rw [if_neg hnotimp, c1PostN_mk, Bool.and_eq_true]
      refine ⟨?_, hkids⟩
      rw [c1Fields]
      simp only [CFields_upd_prefixSummary_type]
      rw [if_neg hnotimp, if_pos hty, preserveOpt_getD_isEmpty,
        assignOpt_getD_isEmpty, if_neg hemp]
      simp [hs]
  · rw [if_neg hty, preserve_eq]
    by_cases himp : f.type = "imports"
    · rw [if_pos himp, c1PostN_mk, Bool.and_eq_true]
      refine ⟨?_, hkids⟩
      rw [c1Fields]
      simp only [CFields_upd_summary_type]
      rw [if_pos himp]
      simp [hp]
    · rw [if_neg himp, c1PostN_mk, Bool.and_eq_true]
      refine ⟨?_, hkids⟩
      rw [c1Fields]
      rw [if_neg himp, if_neg hty]
      simp [hs, hp]

/-- The exact-AST extractor on a module body of an import at line 1, a
second import at line 3 (the blank line 2 produces no AST statement) and a
non-import statement: exactly one `imports` node, spanning line 1 to
line 3. -/
theorem python_import_run (u1 u2 : String) (s : PyStmt)
    (hs : s.isImport = false) :
    countTypeList "imports"
        (extract_nodes_from_python [.imp u1 1 1, .imp u2 3 3, s]) = 1 ∧
      ∃ c ∈ extract_nodes_from_python [.imp u1 1 1, .imp u2 3 3, s],
        c.fields.type = "imports" ∧ c.fields.startLine = 1 ∧
          c.fields.endLine = 3 := by
  have e1 : extract_nodes_from_python [.imp u1 1 1, .imp u2 3 3, s] =
      pyImportsNode [.imp u1 1 1, .imp u2 3 3] ::
        ((match pyProcessNode s none with
          | some n => [n]
          | none => []) ++ []) := by
    rw [extract_nodes_from_python]
    rw [show pyTopLoop [PyStmt.imp u1 1 1, PyStmt.imp u2 3 3, s] [] =
      pyTopLoop [s] [PyStmt.imp u1 1 1, PyStmt.imp u2 3 3] from rfl]
    rw [pyTopLoop, if_neg (by simp [hs])]
    rfl
  rw [e1]
  have h1 : (pyImportsNode [PyStmt.imp u1 1 1,
      PyStmt.imp u2 3 3]).countType "imports" = 1 := by
    rw [show pyImportsNode [PyStmt.imp u1 1 1, PyStmt.imp u2 3 3] =
      CNode.mk
        { title := "Imports", type := "imports", startLine := 1,
          endLine := 3 }
        (some [pyImportChild (PyStmt.imp u1 1 1),
          pyImportChild (PyStmt.imp u2 3 3)]) from rfl]
    simp [pyImportChild]
  constructor
  · rw [countTypeList_cons, h1]
    have hz : countTypeList "imports"
        ((match pyProcessNode s none with
          | some n => [n]
          | none => []) ++ []) = 0 := by
      rcases hn : pyProcessNode s none with _ | n
      · rfl
      · simp only [countTypeList_append, countTypeList_cons,
          countTypeList_nil]
        rw [pyProcessNode_countType_imports s none n hn]
    rw [hz]
  · exact ⟨pyImportsNode [PyStmt.imp u1 1 1, PyStmt.imp u2 3 3],
      List.mem_cons_self _ _, rfl, rfl, rfl⟩

/-- String append cancels on the left. -/
theorem string_append_left_cancel {a b c : String} (h : a ++ b = a ++ c) :
    b = c := by
  have hd : a.data ++ b.data = a.data ++ c.data := congrArg String.data h
  have hbc : b.data = c.data := List.append_cancel_left hd
  rcases b with ⟨bd⟩
  rcases c with ⟨cd⟩
  exact congrArg String.mk hbc

/-- A file whose name lacks a supported extension never reaches
`build_file_tree` during directory traversal: its path is filtered out of
the directory's file-path list. -/
theorem unsupported_not_in_dirFilePaths (dirPath : String)
    (items : List FSItem) (n : String)
    (hn : hasSupportedExt n = false) :
    (dirPath ++ "/" ++ n) ∉ dirFilePaths dirPath items := by
  intro hmem
  rw [dirFilePaths] at hmem
  rcases List.mem_filterMap.mp hmem with ⟨it, hit, hmatch⟩
  rcases it with m | ⟨m, sub⟩
  · have hmatch2 : (if ¬ skippedEntry m ∧ hasSupportedExt m then
        some (dirPath ++ "/" ++ m) else none) =
        some (dirPath ++ "/" ++ n) := hmatch
    by_cases hc : ¬ skippedEntry m ∧ hasSupportedExt m
    · rw [if_pos hc] at hmatch2
      have hmn : m = n :=
        string_append_left_cancel (Option.some.inj hmatch2)
      rw [hmn] at hc
      rw [hc.2] at hn
      cases hn
    · rw [if_neg hc] at hmatch2
      cases hmatch2
  · have hmatch2 : (none : Option String) =
        some (dirPath ++ "/" ++ n) := hmatch
    cases hmatch2

/-- A directory entry point always produces a tree (the traversal is
total: unreadable or unsupported files are silently dropped). -/
theorem dir_entry_ok (bj bk bc bp : String → Option CNode) (d : String)
    (items : List FSItem) :
    ∃ nd, code_to_tree_entry bj bk bc bp (.dirT d items) = .ok nd := by
  refine ⟨CNode.mk
    { title := d, type := "directory", path := some ("" ++ "/" ++ d) }
    (some (buildSubdirs bj bk bc bp ("" ++ "/" ++ d) items ++
      (dirFilePaths ("" ++ "/" ++ d) items).filterMap
        (build_file_tree bj bk bc bp))), ?_⟩
  rw [code_to_tree_entry, buildDirItem]

theorem tsMappedKind_ne {wk : String} (hwk : tsMappedKind wk = false)
    (k : String) (hk : tsMappedKind k = true) : wk ≠ k := by
  intro h
  rw [h, hk] at hwk
  cases hwk

/-- An unmapped CST node materializes nothing: its children's results are
spliced straight into the caller's list. -/
theorem processCppNode_unmapped (wk : String) (ws we : Nat)
    (wn wd : Option String) (wkids : List TSNode) (pt : Option String)
    (hwk : tsMappedKind wk = false) :
    processCppNode (.mk wk ws we wn wd wkids) pt =
      processCppChildren wkids pt := by
  have h1 := tsMappedKind_ne hwk "function_definition" (by decide)
  have h2 := tsMappedKind_ne hwk "template_function" (by decide)
  have h3 := tsMappedKind_ne hwk "class_specifier" (by decide)
  have h4 := tsMappedKind_ne hwk "struct_specifier" (by decide)
  have h5 := tsMappedKind_ne hwk "namespace_definition" (by decide)
  simp only [processCppNode.eq_def]
  rw [if_neg (by rintro (h | h); exacts [h1 h, h2 h]),
    if_neg (by rintro (h | h); exacts [h3 h, h4 h]),
    if_neg h5]

/-- A mapped namespace whose child list holds an unmapped wrapper node:
the wrapper materializes no node and its children's results are spliced
directly into the namespace's children, between the results of its left
and right siblings. -/
theorem namespace_splices_unmapped (pt : Option String) (s e : Nat)
    (nm d : Option String) (pre post : List TSNode) (wk : String)
    (ws we : Nat) (wn wd : Option String) (wkids : List TSNode)
    (hwk : tsMappedKind wk = false) :
    processCppNode
        (.mk "namespace_definition" s e nm d
          (pre ++ .mk wk ws we wn wd wkids :: post)) pt =
      [CNode.mk
        { title := match nm with | some t => t | none => "namespace",
          type := "namespace", startLine := s + 1, endLine := e + 1 }
        (some (processCppChildren pre (some "namespace") ++
          (processCppChildren wkids (some "namespace") ++
            processCppChildren post (some "namespace"))))] := by
  simp only [processCppNode.eq_def]
  rw [if_neg (by decide), if_neg (by decide), if_pos trivial]
  rw [processCppChildren_append, processCppChildren,
    processCppNode_unmapped wk ws we wn wd wkids (some "namespace") hwk]

/-- Claim C1 (amended): after the summarization stage
(`if_add_node_summary='yes'`, every request succeeding) on a tree carrying
no summary fields, every node of a summarizable kind (`class`, `function`,
`method`, `interface`, `enum`, `file`) has exactly one of
`summary`/`prefix_summary` populated — `prefix_summary` if it has
children, `summary` if it is a leaf; every `imports` node has `summary`
populated whether or not it has children; and every other node (e.g.
`import` children, `directory` nodes) has neither. -/
theorem claim_C1 (summarize : CNode → String) (t : CNode)
    (h : noSummN t = true) :
    c1PostN (summarizeStage summarize t) = true := by
  rw [summarizeStage_eq]
  exact c1_stage_post summarize t h

theorem claim_C1_witness :
    noSummN c1CexTree = true ∧
      c1PostN (summarizeStage (fun _ => "S") c1CexTree) = true :=
  ⟨by decide, claim_C1 (fun _ => "S") c1CexTree (by decide)⟩

/-- Claim C1 counterexample: on a file whose only child is an `imports`
block with one `import` child, the stage output violates the claimed
per-node dichotomy — the `imports` node carries `summary` despite having
a child, and the `import` child carries neither field. -/
theorem claim_C1_counterexample :
    c1ClaimN (summarizeStage (fun _ => "S") c1CexTree) = false := by
  decide

/-- Claim C2 (amended): every node of every extractor satisfies
`start_line ≤ end_line` (under each provider's position contract), and
child ranges lie within parent ranges for the exact-AST (Python) and
spanned-CST (C/C++) extractors unconditionally, and for the heuristic
(Kotlin) scanner whenever the scan closed every scope it opened. -/
theorem claim_C2 :
    (∀ body : List PyStmt, (∀ s ∈ body, PyStmt.wfB s = true) →
      pyMono body = true →
      sortedListB (extract_nodes_from_python body) = true ∧
        nestedListB (extract_nodes_from_python body) = true) ∧
    (∀ (imports : List (Option Nat)) (types : List JMember),
      natMono (imports.map jLineRange) = true →
      (∀ t ∈ types, JMember.wfFrom 0 t = true) →
      sortedListB (extract_nodes_from_java imports types) = true) ∧
    (∀ root : TSNode, root.wfB = true →
      sortedListB (extract_nodes_from_cpp root) = true ∧
        nestedListB (extract_nodes_from_cpp root) = true) ∧
    (∀ lines : List String,
      sortedListB (extract_nodes_from_kotlin lines) = true) ∧
    (∀ lines : List String, (kotlinScanEndState lines).stack = [] →
      nestedListB (extract_nodes_from_kotlin lines) = true) := by
  refine ⟨?_, ?_, ?_, ?_, ?_⟩
  · intro body hwf hm
    have h := extract_nodes_from_python_sorted_nested body hwf hm
    constructor
    · rw [sortedListB_iff_mem]
      exact fun c hc => (h c hc).1
    · rw [nestedListB_iff_mem]
      exact fun c hc => (h c hc).2
  · intro imports types him hwf
    rw [sortedListB_iff_mem]
    exact fun c hc => extract_nodes_from_java_sorted imports types him hwf
      c hc
  · intro root hwf
    have h := extract_nodes_from_cpp_sorted_nested root hwf
    constructor
    · rw [sortedListB_iff_mem]
      exact fun c hc => (h c hc).1
    · rw [nestedListB_iff_mem]
      exact fun c hc => (h c hc).2
  · intro lines
    rw [sortedListB_iff_mem]
    exact fun c hc => extract_nodes_from_kotlin_sorted lines c hc
  · intro lines hstack
    rw [nestedListB_iff_mem]
    exact fun c hc =>
      extract_nodes_from_kotlin_nested_of_closed lines hstack c hc

theorem claim_C2_witness :
    (sortedListB (extract_nodes_from_python
        [PyStmt.classDef "A" 1 2 none []
          [.funcDef false "f" "def f()" 2 2 none [] []]]) = true ∧
      nestedListB (extract_nodes_from_python
        [PyStmt.classDef "A" 1 2 none []
          [.funcDef false "f" "def f()" 2 2 none [] []]]) = true) ∧
    sortedListB (extract_nodes_from_java [some 1, some 2]
      [.classDecl .classK "A" (some 3) none [] []]) = true ∧
    (sortedListB (extract_nodes_from_cpp c2CppRoot) = true ∧
      nestedListB (extract_nodes_from_cpp c2CppRoot) = true) ∧
    sortedListB (extract_nodes_from_kotlin ["class A \x7b", "\x7d"]) =
      true ∧
    nestedListB (extract_nodes_from_kotlin ["class A \x7b", "\x7d"]) =
      true :=
  ⟨claim_C2.1 _ (by decide) (by decide),
    claim_C2.2.1 _ _ (by decide) (by decide),
    claim_C2.2.2.1 c2CppRoot (by decide),
    claim_C2.2.2.2.1 _,
    claim_C2.2.2.2.2 _ (by rfl)⟩

/-- Claim C2 counterexample: on a class whose scope is still open when a
nested function's scope closes, the heuristic scanner leaves the parent's
interim `end_line` at its start line while the child ends later, so the
child's range is not contained in the parent's. -/
theorem claim_C2_counterexample :
    nestedListB (extract_nodes_from_kotlin
      ["class Foo \x7b", "fun bar() \x7b", "\x7d"]) = false := by
  decide

/-- Claim C3: thinning is idempotent — for every token counter, threshold
and tree, a second application of `tree_thinning_for_code` with the same
threshold leaves the result of the first unchanged. -/
theorem claim_C3 (tok : String → Nat) (thr : Nat) (t : CNode) :
    tree_thinning_for_code tok thr (tree_thinning_for_code tok thr t) =
      tree_thinning_for_code tok thr t :=
  tree_thinning_for_code_idem tok thr t

/-- Claim C4 (amended): quoted-literal and `//`-comment contents are
stripped before the line affects the running brace-balance update
(`count_braces`), but nowhere else: the opening-brace baseline of a newly
pushed scope frame checks the raw line for `{`, the class-like and
function-like patterns match the raw line, and the import pattern matches
the raw line stripped of surrounding whitespace only. -/
theorem claim_C4 :
    (∀ line : String, count_braces line =
      ((kotlinCleanLine line).toList.count '{' : Int) -
        ((kotlinCleanLine line).toList.count '}' : Int)) ∧
    (∀ (st3 : KState) (n : Nat) (line : String) (tok : KClassTok)
        (name : String), classMatch line = some (tok, name) →
      ∃ f rest, (kDetect st3 n line).stack = f :: rest ∧
        rest = st3.stack ∧
        f.startBalance =
          st3.balance - (if line.toList.contains '{' then 1 else 0)) ∧
    (∀ (st3 : KState) (n : Nat) (line name : String),
      classMatch line = none → funMatch line = some name →
      ∃ f rest, (kDetect st3 n line).stack = f :: rest ∧
        rest = st3.stack ∧
        f.startBalance =
          st3.balance - (if line.toList.contains '{' then 1 else 0)) ∧
    (∀ (st : KState) (n : Nat) (line : String),
      kProcessLine st n line =
        if importMatch (String.mk (pyStripList line.toList)) then
          kImportUpdate st n
        else kDetect (kLineCore st n line) n line) := by
  refine ⟨fun line => rfl, ?_, ?_, fun st n line => rfl⟩
  · intro st3 n line tok name h
    obtain ⟨-, f, rest, hstack, hrest, -, -, -, -, hsb⟩ :=
      kDetect_class_push st3 n line tok name h
    exact ⟨f, rest, hstack, hrest, hsb⟩
  · intro st3 n line name hc hf
    obtain ⟨f, rest, hstack, hrest, -, -, hsb⟩ :=
      kDetect_fun_push st3 n line name hc hf
    exact ⟨f, rest, hstack, hrest, hsb⟩

theorem claim_C4_witness :
    (∃ f rest, (kDetect kInitState 1 "class A \x7b").stack = f :: rest ∧
      rest = kInitState.stack ∧
      f.startBalance = kInitState.balance -
        (if "class A \x7b".toList.contains '{' then 1 else 0)) ∧
    (∃ f rest, (kDetect kInitState 1 "fun f() \x7b").stack = f :: rest ∧
      rest = kInitState.stack ∧
      f.startBalance = kInitState.balance -
        (if "fun f() \x7b".toList.contains '{' then 1 else 0)) :=
  ⟨claim_C4.2.1 kInitState 1 "class A \x7b" .clsTok "A" rfl,
    claim_C4.2.2.1 kInitState 1 "fun f() \x7b" "f" rfl rfl⟩

/-- Claim C4 counterexample: on a class header whose only `{` sits inside
a double-quoted literal, the scanner under the claim's reading (stripping
before the baseline adjustment and the patterns) produces a different
node list than the source scanner, which checks the raw line: the quoted
`{` lowers the pushed frame's baseline, so the class scope never closes
and the following function becomes its method instead of a second
root. -/
theorem claim_C4_counterexample :
    kotlinScanClaimed ["class Foo(\x22\x7b\x22)", "fun bar() \x7b\x7d"] ≠
      extract_nodes_from_kotlin
        ["class Foo(\x22\x7b\x22)", "fun bar() \x7b\x7d"] := by
  intro h
  have hlen := congrArg List.length h
  rw [show (kotlinScanClaimed
      ["class Foo(\x22\x7b\x22)", "fun bar() \x7b\x7d"]).length = 2
      from rfl,
    show (extract_nodes_from_kotlin
      ["class Foo(\x22\x7b\x22)", "fun bar() \x7b\x7d"]).length = 1
      from rfl] at hlen
  cases hlen

/-- Claim C5: on a file made of an import line, a blank line, a second
such import line and a non-import statement, both the exact-AST (Python)
extractor (whose AST body holds the two imports at lines 1 and 3 and the
statement — the blank line yields no AST node) and the heuristic (Kotlin)
scanner produce exactly one `imports` node, spanning line 1 to line 3. -/
theorem claim_C5 :
    (∀ (u1 u2 : String) (s : PyStmt), s.isImport = false →
      countTypeList "imports"
          (extract_nodes_from_python [.imp u1 1 1, .imp u2 3 3, s]) = 1 ∧
        ∃ c ∈ extract_nodes_from_python [.imp u1 1 1, .imp u2 3 3, s],
          c.fields.type = "imports" ∧ c.fields.startLine = 1 ∧
            c.fields.endLine = 3) ∧
    (∀ i1 i2 s : String, kIsImportLine i1 = true →
      kIsImportLine i2 = true → kIsImportLine s = false →
      countTypeList "imports"
          (extract_nodes_from_kotlin [i1, "", i2, s]) = 1 ∧
        ∃ c ∈ extract_nodes_from_kotlin [i1, "", i2, s],
          c.fields.type = "imports" ∧ c.fields.startLine = 1 ∧
            c.fields.endLine = 3) :=
  ⟨python_import_run, kotlin_import_run⟩

theorem claim_C5_witness :
    (countTypeList "imports" (extract_nodes_from_python
        [.imp "import os" 1 1, .imp "import sys" 3 3, .other 4 4]) = 1 ∧
      ∃ c ∈ extract_nodes_from_python
          [.imp "import os" 1 1, .imp "import sys" 3 3, .other 4 4],
        c.fields.type = "imports" ∧ c.fields.startLine = 1 ∧
          c.fields.endLine = 3) ∧
    (countTypeList "imports" (extract_nodes_from_kotlin
        ["import a.b", "", "import c.d", "val x = 1"]) = 1 ∧
      ∃ c ∈ extract_nodes_from_kotlin
          ["import a.b", "", "import c.d", "val x = 1"],
        c.fields.type = "imports" ∧ c.fields.startLine = 1 ∧
          c.fields.endLine = 3) :=
  ⟨claim_C5.1 "import os" "import sys" (.other 4 4) rfl,
    claim_C5.2 "import a.b" "import c.d" "val x = 1" (by decide)
      (by decide) (by decide)⟩

/-- Claim C6: in the coarse-AST (Java) extractor, a class-like node's
`end_line` is the maximum end-line among its processed children (attained
by one of them), or its `start_line` when childless; a method's or
constructor's `end_line` is the last body statement's line plus one, or
its `start_line` when the body is empty or the last statement has no
position. -/
theorem claim_C6 :
    (∀ (kind : JTypeKind) (name : String) (p : Nat)
        (doc : Option String) (ann : List String) (body : List JMember),
      JMember.wfFrom 0 (.classDecl kind name (some p) doc ann body) =
        true →
      ∀ (pt : Option String) (n : CNode),
        processJavaMember (.classDecl kind name (some p) doc ann body)
            pt = some n →
        (n.childList = [] → n.fields.endLine = n.fields.startLine) ∧
          (n.childList ≠ [] →
            (∀ c ∈ n.childList,
              c.fields.endLine ≤ n.fields.endLine) ∧
            n.fields.endLine ∈
              n.childList.map fun c => c.fields.endLine)) ∧
    (∀ (isCtor : Bool) (name : String)
        (params : List (String × String)) (returnType : Option String)
        (pos : Option Nat) (doc : Option String) (ann : List String)
        (body : List JStmt) (pt : Option String) (n : CNode),
      processJavaMember
          (.methodDecl isCtor name params returnType pos doc ann body)
          pt = some n →
      n.fields.startLine = jLineRange pos ∧
        (body = [] → n.fields.endLine = n.fields.startLine) ∧
        ∀ st, body.getLast? = some st →
          (st.position = none →
            n.fields.endLine = n.fields.startLine) ∧
          ∀ q, st.position = some q → n.fields.endLine = q + 1) := by
  constructor
  · intro kind name p doc ann body hwf pt n h
    exact processJavaMember_class_end kind name p doc ann body hwf pt h
  · intro isCtor name params returnType pos doc ann body pt n h
    exact processJavaMember_method_end isCtor name params returnType pos
      doc ann body pt h

theorem claim_C6_witness :
    ((c6ClassNode.childList = [] →
        c6ClassNode.fields.endLine = c6ClassNode.fields.startLine) ∧
      (c6ClassNode.childList ≠ [] →
        (∀ c ∈ c6ClassNode.childList,
          c.fields.endLine ≤ c6ClassNode.fields.endLine) ∧
        c6ClassNode.fields.endLine ∈
          c6ClassNode.childList.map fun c => c.fields.endLine)) ∧
    (c6MethodNode.fields.startLine = jLineRange (some 2) ∧
      (([⟨some 3⟩] : List JStmt) = [] →
        c6MethodNode.fields.endLine = c6MethodNode.fields.startLine) ∧
      ∀ st, ([⟨some 3⟩] : List JStmt).getLast? = some st →
        (st.position = none →
          c6MethodNode.fields.endLine = c6MethodNode.fields.startLine) ∧
        ∀ q, st.position = some q →
          c6MethodNode.fields.endLine = q + 1) :=
  ⟨claim_C6.1 .classK "A" 1 none []
      [.methodDecl false "m" [] none (some 2) none [] [⟨some 3⟩]]
      (by decide) none c6ClassNode rfl,
    claim_C6.2 false "m" [] none (some 2) none [] [⟨some 3⟩]
      (some "class") c6MethodNode rfl⟩

/-- Claim C7: in the spanned-CST (C/C++) extractor, a mapped namespace
containing an unmapped wrapper node materializes no node for the wrapper;
the wrapper's children's results are spliced directly into the
namespace's children, so a mapped free function inside the wrapper
becomes a direct child of the namespace node. -/
theorem claim_C7 (pt : Option String) (s e : Nat) (nm d : Option String)
    (pre post : List TSNode) (wk : String) (ws we : Nat)
    (wn wd : Option String) (wkids : List TSNode)
    (hwk : tsMappedKind wk = false) :
    processCppNode
        (.mk "namespace_definition" s e nm d
          (pre ++ .mk wk ws we wn wd wkids :: post)) pt =
      [CNode.mk
        { title := match nm with | some t => t | none => "namespace",
          type := "namespace", startLine := s + 1, endLine := e + 1 }
        (some (processCppChildren pre (some "namespace") ++
          (processCppChildren wkids (some "namespace") ++
            processCppChildren post (some "namespace"))))] ∧
      ∀ (fs fe : Nat) (fnm fd : Option String) (fkids : List TSNode),
        TSNode.mk "function_definition" fs fe fnm fd fkids ∈ wkids →
        CNode.mk
          { title := cppFunTitle fd, type := "function",
            startLine := fs + 1, endLine := fe + 1 }
          (some (processCppChildren fkids (some "function"))) ∈
          processCppChildren pre (some "namespace") ++
            (processCppChildren wkids (some "namespace") ++
              processCppChildren post (some "namespace")) := by
  refine ⟨namespace_splices_unmapped pt s e nm d pre post wk ws we wn wd
    wkids hwk, ?_⟩
  intro fs fe fnm fd fkids hmem
  refine List.mem_append.mpr (Or.inr (List.mem_append.mpr (Or.inl ?_)))
  refine processCppChildren_mem.mpr
    ⟨.mk "function_definition" fs fe fnm fd fkids, hmem, ?_⟩
  exact List.mem_singleton.mpr rfl

theorem claim_C7_witness :
    processCppNode
        (.mk "namespace_definition" 0 5 (some "ns") none
          ([] ++ .mk "declaration_list" 0 5 none none
            [.mk "function_definition" 1 4 none (some "f") []] ::
              [])) none =
      [CNode.mk
        { title := "ns", type := "namespace", startLine := 1,
          endLine := 6 }
        (some [CNode.mk
          { title := "f()", type := "function", startLine := 2,
            endLine := 5 } (some [])])] ∧
      ∀ (fs fe : Nat) (fnm fd : Option String) (fkids : List TSNode),
        TSNode.mk "function_definition" fs fe fnm fd fkids ∈
          [TSNode.mk "function_definition" 1 4 none (some "f") []] →
        CNode.mk
          { title := cppFunTitle fd, type := "function",
            startLine := fs + 1, endLine := fe + 1 }
          (some (processCppChildren fkids (some "function"))) ∈
          processCppChildren [] (some "namespace") ++
            (processCppChildren
              [TSNode.mk "function_definition" 1 4 none (some "f") []]
              (some "namespace") ++
              processCppChildren [] (some "namespace")) :=
  claim_C7 none 0 5 (some "ns") none [] [] "declaration_list" 0 5 none
    none [TSNode.mk "function_definition" 1 4 none (some "f") []]
    (by decide)

/-- Claim C8: a caller-named file with an unsupported extension is
rejected with a hard error by the entry checks, while during directory
traversal a file with an unsupported extension is silently excluded (its
path never reaches `build_file_tree`) and the traversal still returns a
tree. -/
theorem claim_C8 (bj bk bc bp : String → Option CNode) (p : String)
    (hp : hasSupportedExt p = false) (dirPath n : String)
    (hn : hasSupportedExt n = false) (d : String)
    (items : List FSItem) :
    code_to_tree_entry bj bk bc bp (.fileT p) =
        .error "File extension not supported" ∧
      (dirPath ++ "/" ++ n) ∉ dirFilePaths dirPath items ∧
      ∃ nd, code_to_tree_entry bj bk bc bp (.dirT d items) = .ok nd := by
  refine ⟨?_, unsupported_not_in_dirFilePaths dirPath items n hn,
    dir_entry_ok bj bk bc bp d items⟩
  rw [code_to_tree_entry, if_pos (by simp [hp])]

theorem claim_C8_witness :
    hasSupportedExt "a.txt" = false ∧
      (code_to_tree_entry (fun _ => none) (fun _ => none) (fun _ => none)
          (fun _ => none) (.fileT "a.txt") =
        .error "File extension not supported" ∧
      ("src" ++ "/" ++ "b.txt") ∉
        dirFilePaths "src" [.file "b.txt"] ∧
      ∃ nd, code_to_tree_entry (fun _ => none) (fun _ => none)
          (fun _ => none) (fun _ => none)
          (.dirT "proj" [.file "b.txt"]) = .ok nd) :=
  ⟨by decide,
    claim_C8 (fun _ => none) (fun _ => none) (fun _ => none)
      (fun _ => none) "a.txt" (by decide) "src" "b.txt" (by decide)
      "proj" [.file "b.txt"]⟩

/-- Claim C9: if any single per-node summarization request fails, the
whole batch fails — the error propagates out of
`generate_summaries_for_code_structure` and no assigned tree is produced,
so the tree handed in by the earlier stages is left as it was. -/
theorem claim_C9 {E : Type} (summ : CNode → Except E String) (t : CNode)
    (h : ∃ n ∈ codeNodes t, ∃ e, summ n = .error e) :
    (∃ e, generate_summaries_for_code_structure summ t = .error e) ∧
      ∀ t2, generate_summaries_for_code_structure summ t ≠ .ok t2 :=
  generate_summaries_fail_fast summ t h

theorem claim_C9_witness :
    (∃ e, generate_summaries_for_code_structure
        (fun _ => (Except.error "boom" : Except String String)) c9Tree =
        .error e) ∧
      ∀ t2, generate_summaries_for_code_structure
          (fun _ => (Except.error "boom" : Except String String))
          c9Tree ≠ .ok t2 :=
  claim_C9 (fun _ => (Except.error "boom" : Except String String)) c9Tree
    ⟨c9Tree, (List.mem_cons_self c9Tree [] : c9Tree ∈ codeNodes c9Tree),
      "boom", rfl⟩

/-- Claim C10: whenever a line matches the class-like pattern — in
particular on any line that would also match the function-like pattern —
the scanner pushes exactly the class-like frame: the detection step
equals the class push and the function-like pattern is never consulted,
so no function node is created for that line. -/
theorem claim_C10 (st3 : KState) (n : Nat) (line : String)
    (tok : KClassTok) (name : String)
    (h : classMatch line = some (tok, name)) :
    kDetect st3 n line =
      kPush st3 n line name (kClassTokType tok) none := by
  rw [kDetect, h]

theorem claim_C10_witness :
    kDetect kInitState 1 "class B \x7b" =
      kPush kInitState 1 "class B \x7b" "B" (kClassTokType .clsTok)
        none :=
  claim_C10 kInitState 1 "class B \x7b" .clsTok "B" rfl
